import Mathlib

/-!
# Verification of the WebSocket upgrade response parser

A shallow embedding of `ext/http/websocket_upgrade.rs`: an incremental
parser that consumes a WebSocket upgrade handshake response delivered in
arbitrarily-sized chunks, validates the status line, accumulates the
header block, and returns the structured response together with the
leftover bytes past the header-block terminator.

Bytes are modelled as `Nat` (each value below 256); byte buffers as
`List Nat`.  Fallible operations return `Except`.  The header-block
tokenizer (the external `httparse` crate, out of scope per the spec) is
modelled from the spec's collaborator contract; everything else is
translated from the Rust source.
-/

namespace DenoWS

/-- Error kinds surfaced by the parser (spec §7). -/
inductive HttpError where
  /-- "invalid HTTP status line" -/
  | invalidStatusLine
  /-- "invalid headers": terminator seen but the tokenizer reports the block incomplete -/
  | invalidHeaders
  /-- tokenizer failure: header count exceeds the fixed capacity -/
  | tooManyHeaders
  /-- tokenizer failure: malformed header syntax or invalid UTF-8 in a value -/
  | malformedHeaders
  /-- "attempted to write to completed upgrade buffer" -/
  | useAfterComplete
deriving DecidableEq

/-- String literal → list of byte values (ASCII inputs only are used). -/
def strBytes (s : String) : List Nat := s.data.map Char.toNat

/-! ## The header-block tokenizer

Modelled from the spec: the raw header-block tokenizer (`httparse`'s
`parse_headers` with a fixed 16-slot header array, spec §4.2) is an
external library primitive not present under `src/`; the definitions in
this section follow the spec's contract for it: lines of the form
`name: value` terminated by `\n` or `\r\n`, ended by a blank line;
output is the consumed byte count and the ordered (name, value) list;
failures are "too many headers" past the fixed capacity and malformed
syntax / invalid UTF-8.  Token/value byte classes and whitespace
trimming follow the usual HTTP grammar the tokenizer implements. -/

/-- Header-name bytes: HTTP token characters. -/
def isTokenByte (b : Nat) : Bool :=
  decide (48 ≤ b ∧ b ≤ 57) || decide (65 ≤ b ∧ b ≤ 90) || decide (97 ≤ b ∧ b ≤ 122) ||
  b == 33 || b == 35 || b == 36 || b == 37 || b == 38 || b == 39 ||
  b == 42 || b == 43 || b == 45 || b == 46 || b == 94 || b == 95 ||
  b == 96 || b == 124 || b == 126

/-- Space or horizontal tab. -/
def isWSByte (b : Nat) : Bool := b == 32 || b == 9

/-- Bytes legal inside a header value (printable ASCII, tab, obs-text). -/
def isValueByte (b : Nat) : Bool :=
  b == 9 || decide (32 ≤ b ∧ b ≤ 126) || decide (128 ≤ b ∧ b ≤ 255)

/-- Strip trailing spaces/tabs from a value. -/
def trimTrailing (l : List Nat) : List Nat := (l.reverse.dropWhile isWSByte).reverse

/-- A UTF-8 continuation byte. -/
def isCont (b : Nat) : Bool := decide (128 ≤ b ∧ b ≤ 191)

/-- Consume one UTF-8-encoded codepoint from the front of a byte
sequence, returning the remaining bytes, or `none` if the front is not
a valid encoding. -/
def utf8Step (l : List Nat) : Option (List Nat) :=
  match l with
  | [] => none
  | b :: r =>
    if b ≤ 127 then some r
    else if decide (194 ≤ b ∧ b ≤ 223) then
      match r with
      | c :: r2 => if isCont c then some r2 else none
      | [] => none
    else if b == 224 then
      match r with
      | c :: c2 :: r2 => if decide (160 ≤ c ∧ c ≤ 191) && isCont c2 then some r2 else none
      | _ => none
    else if decide (225 ≤ b ∧ b ≤ 236) || b == 238 || b == 239 then
      match r with
      | c :: c2 :: r2 => if isCont c && isCont c2 then some r2 else none
      | _ => none
    else if b == 237 then
      match r with
      | c :: c2 :: r2 => if decide (128 ≤ c ∧ c ≤ 159) && isCont c2 then some r2 else none
      | _ => none
    else if b == 240 then
      match r with
      | c :: c2 :: c3 :: r2 =>
        if decide (144 ≤ c ∧ c ≤ 191) && isCont c2 && isCont c3 then some r2 else none
      | _ => none
    else if decide (241 ≤ b ∧ b ≤ 243) then
      match r with
      | c :: c2 :: c3 :: r2 => if isCont c && isCont c2 && isCont c3 then some r2 else none
      | _ => none
    else if b == 244 then
      match r with
      | c :: c2 :: c3 :: r2 =>
        if decide (128 ≤ c ∧ c ≤ 143) && isCont c2 && isCont c3 then some r2 else none
      | _ => none
    else none

/-- Fuel-bounded UTF-8 validation loop (`utf8Step` consumes at least
one byte per iteration, so fuel = length suffices). -/
def validUtf8Aux : Nat → List Nat → Bool
  | _, [] => true
  | 0, _ :: _ => false
  | fuel + 1, b :: r =>
    match utf8Step (b :: r) with
    | some r2 => validUtf8Aux fuel r2
    | none => false

/-- UTF-8 validity of a byte sequence. -/
def validUtf8 (l : List Nat) : Bool := validUtf8Aux l.length l

/-- Result of tokenizing a single header line. -/
inductive LineResult where
  /-- ran out of bytes before the line's terminator -/
  | needMore
  /-- illegal byte where a name, colon, value byte or line break was expected -/
  | malformed
  /-- one parsed line: name, (trimmed) value, bytes consumed, remaining bytes -/
  | line (name value : List Nat) (consumed : Nat) (rest : List Nat)
deriving DecidableEq

/-- Modelled from the spec: tokenize one `name: value` header line. -/
def parseLine (l : List Nat) : LineResult :=
  let name := l.takeWhile isTokenByte
  match l.dropWhile isTokenByte with
  | 58 :: r =>
    if name.isEmpty then .malformed
    else
      let r1 := r.dropWhile isWSByte
      let vraw := r1.takeWhile isValueByte
      match r1.dropWhile isValueByte with
      | [] => .needMore
      | 13 :: rest2 =>
        match rest2 with
        | [] => .needMore
        | 10 :: rest3 => .line name (trimTrailing vraw) (l.length - rest3.length) rest3
        | _ => .malformed
      | 10 :: rest3 => .line name (trimTrailing vraw) (l.length - rest3.length) rest3
      | _ => .malformed
  | [] => .needMore
  | _ => .malformed

/-- Outcome of the header-block tokenizer. -/
inductive HeadersStatus where
  /-- complete block: index one past the terminator, ordered header list -/
  | complete (index : Nat) (headers : List (List Nat × List Nat))
  /-- the blank line has not been reached yet -/
  | incomplete
deriving DecidableEq

/-- Modelled from the spec: one iteration of the tokenizer loop when
the header capacity is exhausted — a blank line still completes, but a
further header line is the "too many headers" failure. -/
def parseHeaderLinesZero (bytes : List Nat) : Except HttpError HeadersStatus :=
  match bytes with
  | [] => .ok .incomplete
  | b :: rest =>
    if b = 13 then
      match rest with
      | [] => .ok .incomplete
      | b2 :: _ => if b2 = 10 then .ok (.complete 2 []) else .error .malformedHeaders
    else if b = 10 then .ok (.complete 1 [])
    else .error .tooManyHeaders

/-- Modelled from the spec: one iteration of the tokenizer loop with
capacity left; `rec` continues the loop after one parsed header line. -/
def parseHeaderLinesSucc (rec : List Nat → Except HttpError HeadersStatus)
    (bytes : List Nat) : Except HttpError HeadersStatus :=
  match bytes with
  | [] => .ok .incomplete
  | b :: rest =>
    if b = 13 then
      match rest with
      | [] => .ok .incomplete
      | b2 :: _ => if b2 = 10 then .ok (.complete 2 []) else .error .malformedHeaders
    else if b = 10 then .ok (.complete 1 [])
    else
      match parseLine (b :: rest) with
      | .needMore => .ok .incomplete
      | .malformed => .error .malformedHeaders
      | .line name value consumed lrest =>
        match rec lrest with
        | .ok (.complete idx hdrs) => .ok (.complete (consumed + idx) ((name, value) :: hdrs))
        | other => other

/-- Modelled from the spec: the header-block tokenizer.  Parses header
lines until the blank line; `cap` is the remaining header capacity
(16 at the top level); a further header line with no capacity left is
the "too many headers" failure. -/
def parseHeaderLines (bytes : List Nat) (cap : Nat) : Except HttpError HeadersStatus :=
  match cap with
  | 0 => parseHeaderLinesZero bytes
  | cap2 + 1 => parseHeaderLinesSucc (fun lrest => parseHeaderLines lrest cap2) bytes

/-- ASCII uppercase → lowercase (header-name canonicalization). -/
def lowerByte (b : Nat) : Nat := if 65 ≤ b ∧ b ≤ 90 then b + 32 else b

/-- A structured response: fixed status code and ordered header pairs. -/
structure HttpResponse where
  status : Nat
  headers : List (List Nat × List Nat)
deriving DecidableEq

/-- `parse_response`: given a buffer that ends in `\n\n` or `\r\n\r\n`,
tokenize the header block and build the structured 101 response, with
header names lowercased; returns the consumed index and the response. -/
def parse_response (header_bytes : List Nat) : Except HttpError (Nat × HttpResponse) :=
  match parseHeaderLines header_bytes 16 with
  | .error e => .error e
  | .ok .incomplete => .error .invalidHeaders
  | .ok (.complete index hdrs) =>
    if hdrs.all (fun h => validUtf8 h.2) then
      .ok (index, ⟨101, hdrs.map (fun h => (h.1.map lowerByte, h.2))⟩)
    else .error .malformedHeaders

/-- `find_newline`: index of the first `\n` in a slice. -/
def find_newline : List Nat → Option Nat
  | [] => none
  | b :: t => if b = 10 then some 0 else (find_newline t).map (fun i => i + 1)

/-- Does `needle` occur contiguously inside `hay`?  (The searcher's
result index is never used by the caller, only occurrence.) -/
def containsSeq (needle : List Nat) : List Nat → Bool
  | [] => needle.isEmpty
  | h :: t => needle.isPrefixOf (h :: t) || containsSeq needle t

/-- WebSocket upgrade state machine states. -/
inductive WebSocketUpgradeState where
  | Initial
  | StatusLine
  | Headers
  | Complete
deriving DecidableEq

/-- The parser instance: current state and accumulation buffer. -/
structure WebSocketUpgrade where
  state : WebSocketUpgradeState
  buf : List Nat
deriving DecidableEq

/-- A fresh parser (Rust `WebSocketUpgrade::default()`). -/
def WebSocketUpgrade.fresh : WebSocketUpgrade := ⟨.Initial, []⟩

/-- `validate_status`: the status line must start with `HTTP/1.1 101 `. -/
def validate_status (status : List Nat) : Except HttpError Unit :=
  if (strBytes "HTTP/1.1 101 ").isPrefixOf status then .ok ()
  else .error .invalidStatusLine

/-- The `Headers`-state body of `write`: append the chunk, search for
either terminator, and on a hit parse the buffer and split it at the
consumed index. -/
def writeHeaders (buf bytes : List Nat) :
    WebSocketUpgrade × Except HttpError (Option (HttpResponse × List Nat)) :=
  let buf2 := buf ++ bytes
  if containsSeq [13, 10, 13, 10] buf2 then
    match parse_response buf2 with
    | .error e => (⟨.Headers, buf2⟩, .error e)
    | .ok (index, response) => (⟨.Complete, []⟩, .ok (some (response, buf2.drop index)))
  else if containsSeq [10, 10] buf2 then
    match parse_response buf2 with
    | .error e => (⟨.Headers, buf2⟩, .error e)
    | .ok (index, response) => (⟨.Complete, []⟩, .ok (some (response, buf2.drop index)))
  else (⟨.Headers, buf2⟩, .ok none)

/-- `WebSocketUpgrade::write`: feed one chunk; returns the mutated
parser together with `Ok(None)` (more data needed), `Ok(Some(response,
leftover))`, or an error. -/
def write (self : WebSocketUpgrade) (bytes : List Nat) :
    WebSocketUpgrade × Except HttpError (Option (HttpResponse × List Nat)) :=
  match self.state with
  | .Initial =>
    match find_newline bytes with
    | some index =>
      let status := bytes.take (index + 1)
      let rest := bytes.drop (index + 1)
      match validate_status status with
      | .error e => (self, .error e)
      | .ok _ =>
        -- Fast path: the rest of this single chunk already ends in `\r\n\r\n`.
        if [13, 10, 13, 10].isSuffixOf rest then
          match parse_response rest with
          | .error e => (self, .error e)
          | .ok (index2, response) => (self, .ok (some (response, rest.drop index2)))
        else
          writeHeaders self.buf rest
    | none => ({ self with state := .StatusLine, buf := self.buf ++ bytes }, .ok none)
  | .StatusLine =>
    match find_newline bytes with
    | some index =>
      let status := bytes.take (index + 1)
      let rest := bytes.drop (index + 1)
      let buf2 := self.buf ++ status
      match validate_status buf2 with
      | .error e => ({ self with buf := buf2 }, .error e)
      | .ok _ => writeHeaders [] rest
    | none => ({ self with buf := self.buf ++ bytes }, .ok none)
  | .Headers => writeHeaders self.buf bytes
  | .Complete => (self, .error .useAfterComplete)

/-- Result of driving the parser over a sequence of chunks. -/
inductive Outcome where
  | pending (s : WebSocketUpgrade)
  | done (s : WebSocketUpgrade) (response : HttpResponse) (leftover : List Nat)
  | failed (s : WebSocketUpgrade) (e : HttpError)
deriving DecidableEq

/-- Feed chunks in order until the first `Done`/failure (as the
transport loop does); `pending` if the chunks run out first. -/
def runWrites (s : WebSocketUpgrade) : List (List Nat) → Outcome
  | [] => .pending s
  | c :: cs =>
    match write s c with
    | (s2, .ok none) => runWrites s2 cs
    | (s2, .ok (some (r, l))) => .done s2 r l
    | (s2, .error e) => .failed s2 e

/-- Like `runWrites`, also accumulating the bytes actually passed to
`write` (for the byte-conservation invariant). -/
def runAcc (s : WebSocketUpgrade) (acc : List Nat) :
    List (List Nat) → Outcome × List Nat
  | [] => (.pending s, acc)
  | c :: cs =>
    match write s c with
    | (s2, .ok none) => runAcc s2 (acc ++ c) cs
    | (s2, .ok (some (r, l))) => (.done s2 r l, acc ++ c)
    | (s2, .error e) => (.failed s2 e, acc ++ c)

/-- Fuel-bounded worker for `chunksOf` (structural recursion on the
fuel, which the wrapper sets to the list length). -/
def chunksOfAux (k : Nat) : List Nat → Nat → List (List Nat)
  | [], _ => []
  | _ :: _, 0 => []
  | b :: t, fuel + 1 => (b :: t.take (k - 1)) :: chunksOfAux k (t.drop (k - 1)) fuel

/-- Split a byte sequence into consecutive chunks of size `k` (the last
chunk may be shorter); `k = 0` is treated as chunk size 1. -/
def chunksOf (k : Nat) (l : List Nat) : List (List Nat) := chunksOfAux k l l.length

/-- Numeric rank of a parser state along the forward order
`Initial → StatusLine → Headers → Complete`. -/
def stateRank : WebSocketUpgradeState → Nat
  | .Initial => 0
  | .StatusLine => 1
  | .Headers => 2
  | .Complete => 3

/-- The reachable-state invariant tying the parser to the bytes fed so
far while no completion has been reported. -/
def Inv (s : WebSocketUpgrade) (acc : List Nat) : Prop :=
  (s = ⟨.Initial, []⟩ ∧ acc = []) ∨
  (s.state = .StatusLine ∧ s.buf = acc ∧ find_newline acc = none) ∨
  (s.state = .Headers ∧ ∃ i, find_newline acc = some i ∧ s.buf = acc.drop (i + 1))

/-- What a `Done` outcome means for the bytes `acc` fed so far: the
status line is `acc` up to the first newline, the tokenizer consumed
`idx` bytes of the remainder, the leftover is the rest, and every byte
is accounted for exactly once. -/
def DoneSpec (acc : List Nat) (r : HttpResponse) (left : List Nat) : Prop :=
  ∃ i idx, find_newline acc = some i ∧
    parse_response (acc.drop (i + 1)) = .ok (idx, r) ∧
    left = (acc.drop (i + 1)).drop idx ∧
    acc.length = (i + 1) + idx + left.length

/-! ## The family of well-formed upgrade responses

The universally-quantified claims speak of "every valid complete
response".  We formalize that set as the image of a rendering function
over structured descriptions: a reason phrase, per-line choice of
`\r\n` or bare `\n` endings, an ordered list of header lines, and
arbitrary trailing bytes. -/

/-- One header line of a response: name, value, and whether the line
ends with `\r\n` (`crlf = true`) or bare `\n`. -/
structure HeaderLine where
  name : List Nat
  value : List Nat
  crlf : Bool
deriving DecidableEq

/-- A structured description of a complete upgrade response. -/
structure UpgradeResponse where
  reason : List Nat
  statusCrlf : Bool
  headers : List HeaderLine
  termCrlf : Bool
  trailing : List Nat
deriving DecidableEq

/-- Line terminator bytes. -/
def lineEnd (crlf : Bool) : List Nat := if crlf then [13, 10] else [10]

/-- Render one header line as `name: value` plus its terminator. -/
def renderLine (h : HeaderLine) : List Nat :=
  h.name ++ [58, 32] ++ h.value ++ lineEnd h.crlf

/-- Render the header block (all header lines plus the blank line). -/
def renderBlock (hs : List HeaderLine) (tc : Bool) : List Nat :=
  (hs.map renderLine).flatten ++ lineEnd tc

/-- The mandatory status-line byte pattern `HTTP/1.1 101 `. -/
def statusPat : List Nat := strBytes "HTTP/1.1 101 "

/-- Render the status line. -/
def renderStatus (reason : List Nat) (sc : Bool) : List Nat :=
  statusPat ++ reason ++ lineEnd sc

/-- Render a complete response byte sequence. -/
def render (D : UpgradeResponse) : List Nat :=
  renderStatus D.reason D.statusCrlf ++ renderBlock D.headers D.termCrlf ++ D.trailing

/-- Well-formedness of one header line: nonempty token name; printable
ASCII value with no leading or trailing whitespace (so the tokenizer
returns it unchanged). -/
def WFHeader (h : HeaderLine) : Prop :=
  h.name ≠ [] ∧ (∀ b ∈ h.name, isTokenByte b = true) ∧
  (∀ b ∈ h.value, b = 9 ∨ (32 ≤ b ∧ b ≤ 126)) ∧
  h.value.dropWhile isWSByte = h.value ∧ trimTrailing h.value = h.value

instance : DecidablePred WFHeader := fun h => by
  unfold WFHeader
  infer_instance

/-- Well-formedness of a response description: newline-free reason
phrase, well-formed header lines, and a shape the parser can actually
complete on: at least one header line, and if the blank line uses
`\r\n` then the last header line does too (otherwise neither
terminator ever occurs in the byte stream). -/
def WFResponse (D : UpgradeResponse) : Prop :=
  (∀ b ∈ D.reason, b ≠ 10 ∧ b ≠ 13) ∧ (∀ h ∈ D.headers, WFHeader h) ∧
  D.headers ≠ [] ∧
  (D.termCrlf = true → ∃ hl, D.headers.getLast? = some hl ∧ hl.crlf = true)

instance : DecidablePred WFResponse := fun D => by
  unfold WFResponse
  infer_instance

/-- The structured response a successful parse of the rendered block
produces: status 101 with lowercased names, in order. -/
def respOf (hs : List HeaderLine) : HttpResponse :=
  ⟨101, hs.map (fun h => (h.name.map lowerByte, h.value))⟩

/-! ## Claim theorems over the rendered-response family -/



/-- The newline-free part of a rendered status line. -/
def statusPre (reason : List Nat) (sc : Bool) : List Nat :=
  statusPat ++ reason ++ (if sc then [13] else [])

/-- Replace every line ending in the header block (status line, header
lines, blank line) by `\r\n`, leaving the trailing bytes alone. -/
def crlfAll (D : UpgradeResponse) : UpgradeResponse :=
  ⟨D.reason, true, D.headers.map (fun h => ⟨h.name, h.value, true⟩), true, D.trailing⟩

/-- Concrete well-formed response used by the witnesses. -/
def D0 : UpgradeResponse :=
  ⟨strBytes "Switching Protocols", false,
   [⟨strBytes "Connection", strBytes "Upgrade", false⟩], false, strBytes "XY"⟩

/-- Concrete response with 17 header lines. -/
def D17 : UpgradeResponse :=
  ⟨[88], false, List.replicate 17 ⟨[104], [49], false⟩, false, []⟩

/-- Concrete header list with a duplicated name. -/
def hsDup : List HeaderLine :=
  [⟨strBytes "A", strBytes "1", false⟩, ⟨strBytes "A", strBytes "2", false⟩]

/-! ## Theorems -/

/-! ## Basic facts about `writeHeaders` and `write` -/

theorem writeHeaders_state (buf bytes : List Nat) :
    (writeHeaders buf bytes).1.state = .Headers ∨ (writeHeaders buf bytes).1.state = .Complete := by
  unfold writeHeaders
  dsimp only
  split
  · split <;> simp
  · split
    · split <;> simp
    · simp

theorem writeHeaders_done_state (buf bytes : List Nat) (s2 : WebSocketUpgrade)
    (r : HttpResponse) (l : List Nat)
    (h : writeHeaders buf bytes = (s2, .ok (some (r, l)))) : s2 = ⟨.Complete, []⟩ := by
  unfold writeHeaders at h
  dsimp only at h
  split at h
  · split at h <;> simp_all
  · split at h
    · split at h <;> simp_all
    · simp_all

/-! ## Claim theorems: concrete counterexamples and guards -/

/-- C1 counterexample: for the valid complete response
`"HTTP/1.1 101 A\nB: C\n\nZ"`, a single-call write returns leftover
`"Z"` while byte-by-byte delivery (chunk size 1) returns the same
structured response but an **empty** leftover (the trailing byte was
never fed before completion), so the leftover is not chunking-invariant. -/
theorem C1_chunk_leftover_counterexample :
    runWrites .fresh [strBytes "HTTP/1.1 101 A\nB: C\n\nZ"]
      = .done ⟨.Complete, []⟩ ⟨101, [([98], [67])]⟩ [90] ∧
    runWrites .fresh (chunksOf 1 (strBytes "HTTP/1.1 101 A\nB: C\n\nZ"))
      = .done ⟨.Complete, []⟩ ⟨101, [([98], [67])]⟩ [] := by decide

/-- C2 counterexample: a `Done` outcome produced by the single-call fast
path leaves the parser in the `Initial` state, and the next `write` is
processed as a fresh parse returning `Ok(None)` (pending, buffering the
byte as a new status line) instead of the `UseAfterComplete` failure. -/
theorem C2_fastpath_guard_counterexample :
    (write .fresh (strBytes "HTTP/1.1 101 A\nB: C\r\n\r\n")).2
      = .ok (some (⟨101, [([98], [67])]⟩, [])) ∧
    write (write .fresh (strBytes "HTTP/1.1 101 A\nB: C\r\n\r\n")).1 (strBytes "x")
      = (⟨.StatusLine, strBytes "x"⟩, .ok none) := ⟨rfl, rfl⟩

/-- C2 amended: once the parser is in the `Complete` state (which every
`Done` outcome other than the single-call fast path establishes), every
subsequent `write`, with any chunk, returns the `UseAfterComplete`
failure and leaves the parser untouched (no byte is reprocessed); the
single-call fast path instead leaves the state at `Initial`. -/
theorem C2_post_completion_guard_amended (s : WebSocketUpgrade) :
    (∀ bytes, s.state = .Complete → write s bytes = (s, .error .useAfterComplete)) ∧
    (∀ c s2 r l, write s c = (s2, .ok (some (r, l))) → s.state ≠ .Initial →
      s2.state = .Complete) := by
  constructor
  · intro bytes h
    obtain ⟨st, buf⟩ := s
    dsimp only at h
    subst h
    rfl
  · intro c s2 r l h hne
    obtain ⟨st, buf⟩ := s
    dsimp only at hne
    cases st
    · exact absurd rfl hne
    · unfold write at h
      dsimp only at h
      split at h
      · split at h
        · simp_all
        · have := writeHeaders_done_state _ _ _ _ _ h
          simp [this]
      · simp_all
    · have := writeHeaders_done_state _ _ _ _ _ h
      simp [this]
    · simp [write] at h

/-- C2 witness: the guard theorem applied to a parser in the `Complete`
state with a concrete chunk. -/
theorem C2_post_completion_guard_witness :
    write ⟨.Complete, []⟩ [120] = (⟨.Complete, []⟩, .error .useAfterComplete) :=
  (C2_post_completion_guard_amended ⟨.Complete, []⟩).1 [120] rfl

/-- C4: feeding the single chunk
`"HTTP/1.1 101 Switching Protocols\nConnection: Upgrade\n\ntrailing data"`
returns `Done` with ordered headers `[("connection", "Upgrade")]` and
leftover exactly `"trailing data"`; and with trailing bytes that
themselves contain `\r\n\r\n` the leftover is still the exact byte
suffix past the header-block end, not re-searched or reinterpreted. -/
theorem C4_leftover_exactness :
    runWrites .fresh [strBytes "HTTP/1.1 101 Switching Protocols\nConnection: Upgrade\n\ntrailing data"]
      = .done ⟨.Complete, []⟩ ⟨101, [(strBytes "connection", strBytes "Upgrade")]⟩
          (strBytes "trailing data") ∧
    runWrites .fresh
        [strBytes "HTTP/1.1 101 Switching Protocols\nConnection: Upgrade\n\ntrailing data\r\n\r\n"]
      = .done ⟨.Initial, []⟩ ⟨101, [(strBytes "connection", strBytes "Upgrade")]⟩
          (strBytes "trailing data\r\n\r\n") := by decide

/-- C9 counterexample: the single-call fast path returns a `Done`
outcome while leaving the parser in the `Initial` state, so no
`Initial → Complete` transition happens. -/
theorem C9_fastpath_state_counterexample :
    (write .fresh (strBytes "HTTP/1.1 101 A\nB: C\r\n\r\n")).2
      = .ok (some (⟨101, [([98], [67])]⟩, [])) ∧
    (write .fresh (strBytes "HTTP/1.1 101 A\nB: C\r\n\r\n")).1 = ⟨.Initial, []⟩ := ⟨rfl, rfl⟩

/-- C9 amended: the parser state never moves backward along
`Initial → StatusLine → Headers → Complete` across `write` calls (its
rank is monotone); the single-call fast path, however, returns `Done`
without leaving `Initial`. -/
theorem C9_forward_only_amended (s : WebSocketUpgrade) (bytes : List Nat) :
    stateRank s.state ≤ stateRank (write s bytes).1.state := by
  obtain ⟨st, buf⟩ := s
  cases st
  · exact Nat.zero_le _
  · show stateRank .StatusLine ≤ _
    unfold write
    dsimp only
    cases hfn : find_newline bytes with
    | none => simp [stateRank]
    | some index =>
      dsimp only
      cases hv : validate_status (buf ++ bytes.take (index + 1)) with
      | error e => simp [stateRank]
      | ok u =>
        rcases writeHeaders_state [] (bytes.drop (index + 1)) with h | h <;>
          simp [h, stateRank]
  · show stateRank .Headers ≤ _
    unfold write
    dsimp only
    rcases writeHeaders_state buf bytes with h | h <;> simp [h, stateRank]
  · show stateRank .Complete ≤ _
    simp [write, stateRank]

/-- C10 counterexample: after the single chunk `"HTTP/1.1 101 X\r\n\r\n"`
left the parse pending, a further `write` of the single byte `\n` makes
the buffer contain `\n\n` and completes the parse with zero headers, so
further input *can* complete this parse. -/
theorem C10_completion_counterexample :
    runWrites .fresh [strBytes "HTTP/1.1 101 X\r\n\r\n", [10]]
      = .done ⟨.Complete, []⟩ ⟨101, []⟩ [10] := by decide

/-- C10 amended: the single chunk `"HTTP/1.1 101 X\r\n\r\n"` returns
`Pending` (after stripping the status line only `\r\n` remains, which
contains neither terminator), but the parse is not stuck forever: a
subsequent `"\n"` completes it with zero headers and leftover `"\n"`. -/
theorem C10_zero_header_pending_amended :
    runWrites .fresh [strBytes "HTTP/1.1 101 X\r\n\r\n"] = .pending ⟨.Headers, [13, 10]⟩ ∧
    runWrites .fresh [strBytes "HTTP/1.1 101 X\r\n\r\n", strBytes "\n"]
      = .done ⟨.Complete, []⟩ ⟨101, []⟩ (strBytes "\n") := by decide

/-! ## Byte accounting lemmas -/

theorem find_newline_cons (b : Nat) (t : List Nat) :
    find_newline (b :: t)
      = if b = 10 then some 0 else (find_newline t).map (fun i => i + 1) := rfl

theorem find_newline_lt (a : List Nat) (i : Nat) (h : find_newline a = some i) :
    i < a.length := by
  induction a generalizing i with
  | nil => simp [find_newline] at h
  | cons b t ih =>
    rw [find_newline_cons] at h
    by_cases hb : b = 10
    · simp [hb] at h
      simp only [List.length_cons]
      omega
    · rw [if_neg hb] at h
      cases ht : find_newline t with
      | none => simp [ht] at h
      | some j =>
        simp [ht] at h
        have := ih j ht
        simp only [List.length_cons]
        omega

theorem find_newline_append_none (a c : List Nat) (h : find_newline a = none) :
    find_newline (a ++ c) = (find_newline c).map (fun i => i + a.length) := by
  induction a with
  | nil => simp
  | cons b t ih =>
    rw [find_newline_cons] at h
    by_cases hb : b = 10
    · simp [hb] at h
    · rw [if_neg hb] at h
      have ht : find_newline t = none := by
        cases htt : find_newline t <;> simp [htt] at h ⊢
      rw [List.cons_append, find_newline_cons, if_neg hb, ih ht]
      cases find_newline c with
      | none => simp
      | some j =>
        simp only [Option.map_some', Option.map_some, Option.some.injEq, List.length_cons]
        omega

theorem find_newline_append_some (a c : List Nat) (i : Nat) (h : find_newline a = some i) :
    find_newline (a ++ c) = some i := by
  induction a generalizing i with
  | nil => simp [find_newline] at h
  | cons b t ih =>
    rw [find_newline_cons] at h
    rw [List.cons_append, find_newline_cons]
    by_cases hb : b = 10
    · simpa [hb] using h
    · rw [if_neg hb] at h ⊢
      cases ht : find_newline t with
      | none => simp [ht] at h
      | some j =>
        simp only [ht, Option.map_some'] at h
        rw [ih j ht]
        simpa using h

theorem parseLine_rest (l n v : List Nat) (c : Nat) (r : List Nat)
    (h : parseLine l = .line n v c r) : r.length ≤ l.length ∧ c + r.length = l.length := by
  unfold parseLine at h
  dsimp only at h
  split at h
  case h_2 => exact absurd h (by simp)
  case h_3 => exact absurd h (by simp)
  rename_i r0 heq
  have hlr0 : r0.length + 1 ≤ l.length := by
    have h1 : (List.dropWhile isTokenByte l).length ≤ l.length :=
      (List.dropWhile_suffix _).length_le
    rw [heq] at h1
    simpa using h1
  have hval : ∀ tl : List Nat,
      List.dropWhile isValueByte (List.dropWhile isWSByte r0) = tl → tl.length ≤ r0.length := by
    intro tl htl
    have h2 : (List.dropWhile isValueByte (List.dropWhile isWSByte r0)).length ≤ r0.length :=
      le_trans (List.dropWhile_suffix _).length_le (List.dropWhile_suffix _).length_le
    rwa [htl] at h2
  split at h
  · exact absurd h (by simp)
  split at h
  · exact absurd h (by simp)
  · rename_i rest2 heq2
    split at h
    · exact absurd h (by simp)
    · rename_i a1 a2 rest3
      rw [LineResult.line.injEq] at h
      obtain ⟨-, -, hc, hr⟩ := h
      subst hr
      have := hval _ heq2
      simp only [List.length_cons] at this
      omega
    · exact absurd h (by simp)
  · rename_i rest3 heq2
    rw [LineResult.line.injEq] at h
    obtain ⟨-, -, hc, hr⟩ := h
    subst hr
    have := hval _ heq2
    simp only [List.length_cons] at this
    omega
  · exact absurd h (by simp)

theorem parseHeaderLinesZero_le (bytes : List Nat) (idx : Nat)
    (hdrs : List (List Nat × List Nat))
    (h : parseHeaderLinesZero bytes = .ok (.complete idx hdrs)) : idx ≤ bytes.length := by
  unfold parseHeaderLinesZero at h
  split at h
  · exact absurd h (by simp)
  split at h
  · split at h
    · exact absurd h (by simp)
    split at h
    · rw [Except.ok.injEq, HeadersStatus.complete.injEq] at h
      obtain ⟨hidx, -⟩ := h
      simp only [List.length_cons]
      omega
    · exact absurd h (by simp)
  split at h
  · rw [Except.ok.injEq, HeadersStatus.complete.injEq] at h
    obtain ⟨hidx, -⟩ := h
    simp only [List.length_cons]
    omega
  · exact absurd h (by simp)

theorem parseHeaderLinesSucc_le (rec : List Nat → Except HttpError HeadersStatus)
    (hrec : ∀ b i hs, rec b = .ok (.complete i hs) → i ≤ b.length)
    (bytes : List Nat) (idx : Nat) (hdrs : List (List Nat × List Nat))
    (h : parseHeaderLinesSucc rec bytes = .ok (.complete idx hdrs)) : idx ≤ bytes.length := by
  unfold parseHeaderLinesSucc at h
  split at h
  · exact absurd h (by simp)
  split at h
  · split at h
    · exact absurd h (by simp)
    split at h
    · rw [Except.ok.injEq, HeadersStatus.complete.injEq] at h
      obtain ⟨hidx, -⟩ := h
      simp only [List.length_cons]
      omega
    · exact absurd h (by simp)
  split at h
  · rw [Except.ok.injEq, HeadersStatus.complete.injEq] at h
    obtain ⟨hidx, -⟩ := h
    simp only [List.length_cons]
    omega
  · split at h
    · exact absurd h (by simp)
    · exact absurd h (by simp)
    · rename_i name value consumed lrest hline
      split at h
      · rename_i idx2 hdrs2 hrec2
        rw [Except.ok.injEq, HeadersStatus.complete.injEq] at h
        obtain ⟨hidx, -⟩ := h
        have hr := parseLine_rest _ _ _ _ _ hline
        have hrecle := hrec _ _ _ hrec2
        simp only [List.length_cons] at hr ⊢
        omega
      · rename_i other hne
        exact absurd h (by exact fun hh => hne _ _ hh)

theorem parseHeaderLines_complete_le (cap : Nat) (bytes : List Nat) (idx : Nat)
    (hdrs : List (List Nat × List Nat))
    (h : parseHeaderLines bytes cap = .ok (.complete idx hdrs)) : idx ≤ bytes.length := by
  induction cap generalizing bytes idx hdrs with
  | zero => exact parseHeaderLinesZero_le _ _ _ h
  | succ cap2 ih =>
    exact parseHeaderLinesSucc_le _ (fun b i hs hb => ih b i hs hb) _ _ _ h

theorem parse_response_le (b : List Nat) (idx : Nat) (r : HttpResponse)
    (h : parse_response b = .ok (idx, r)) : idx ≤ b.length := by
  unfold parse_response at h
  split at h
  · exact absurd h (by simp)
  · exact absurd h (by simp)
  · rename_i idx2 hdrs2 hphl
    split at h
    · rw [Except.ok.injEq, Prod.mk.injEq] at h
      obtain ⟨hidx, -⟩ := h
      subst hidx
      exact parseHeaderLines_complete_le _ _ _ _ hphl
    · exact absurd h (by simp)

/-! ## Byte conservation -/



theorem writeHeaders_pending (buf c : List Nat) (s2 : WebSocketUpgrade)
    (h : writeHeaders buf c = (s2, .ok none)) : s2 = ⟨.Headers, buf ++ c⟩ := by
  unfold writeHeaders at h
  dsimp only at h
  split at h
  · split at h <;> simp_all
  · split at h
    · split at h <;> simp_all
    · simp_all

theorem writeHeaders_done (buf c : List Nat) (s2 : WebSocketUpgrade) (r : HttpResponse)
    (l : List Nat) (h : writeHeaders buf c = (s2, .ok (some (r, l)))) :
    ∃ idx, parse_response (buf ++ c) = .ok (idx, r) ∧ l = (buf ++ c).drop idx := by
  unfold writeHeaders at h
  dsimp only at h
  split at h
  · split at h
    · simp_all
    · rename_i idx resp hpr
      rw [Prod.mk.injEq, Except.ok.injEq, Option.some.injEq, Prod.mk.injEq] at h
      obtain ⟨-, hr, hl⟩ := h
      exact ⟨idx, by rw [hpr, hr], hl.symm⟩
  · split at h
    · split at h
      · simp_all
      · rename_i idx resp hpr
        rw [Prod.mk.injEq, Except.ok.injEq, Option.some.injEq, Prod.mk.injEq] at h
        obtain ⟨-, hr, hl⟩ := h
        exact ⟨idx, by rw [hpr, hr], hl.symm⟩
    · simp_all

theorem write_step_inv (s : WebSocketUpgrade) (acc c : List Nat) (hInv : Inv s acc) :
    (∀ s2, write s c = (s2, .ok none) → Inv s2 (acc ++ c)) ∧
    (∀ s2 r l, write s c = (s2, .ok (some (r, l))) → DoneSpec (acc ++ c) r l) := by
  rcases hInv with ⟨hs, hacc⟩ | ⟨hst, hbuf, hfn⟩ | ⟨hst, i, hfn, hbuf⟩
  · -- Initial, nothing fed yet
    subst hs hacc
    simp only [List.nil_append]
    constructor
    · intro s2 h
      unfold write at h
      dsimp only at h
      cases hfc : find_newline c with
      | none =>
        rw [hfc] at h
        dsimp only at h
        rw [Prod.mk.injEq] at h
        obtain ⟨hs2, -⟩ := h
        exact Or.inr (Or.inl ⟨by rw [← hs2], by rw [← hs2]; simp, hfc⟩)
      | some j =>
        rw [hfc] at h
        dsimp only at h
        cases hv : validate_status (c.take (j + 1)) with
        | error e => rw [hv] at h; simp at h
        | ok u =>
          rw [hv] at h
          dsimp only at h
          split at h
          · split at h
            · simp at h
            · simp at h
          · have := writeHeaders_pending _ _ _ h
            subst this
            refine Or.inr (Or.inr ⟨rfl, j, hfc, by simp⟩)
    · intro s2 r l h
      unfold write at h
      dsimp only at h
      cases hfc : find_newline c with
      | none =>
        rw [hfc] at h
        simp at h
      | some j =>
        rw [hfc] at h
        dsimp only at h
        cases hv : validate_status (c.take (j + 1)) with
        | error e => rw [hv] at h; simp at h
        | ok u =>
          rw [hv] at h
          dsimp only at h
          have hjlt := find_newline_lt c j hfc
          split at h
          · split at h
            · simp at h
            · rename_i idx resp hpr
              rw [Prod.mk.injEq, Except.ok.injEq, Option.some.injEq, Prod.mk.injEq] at h
              obtain ⟨-, hr, hl⟩ := h
              have hle := parse_response_le _ _ _ hpr
              refine ⟨j, idx, hfc, by rw [hpr, hr], hl.symm, ?_⟩
              subst hl
              simp only [List.length_drop] at hle ⊢
              omega
          · obtain ⟨idx, hpr, hl⟩ := writeHeaders_done _ _ _ _ _ h
            simp only [List.nil_append] at hpr hl
            have hle := parse_response_le _ _ _ hpr
            refine ⟨j, idx, hfc, hpr, hl, ?_⟩
            subst hl
            simp only [List.length_drop] at hle ⊢
            omega
  · -- StatusLine: buffer holds all fed bytes, no newline yet
    obtain ⟨st, buf⟩ := s
    dsimp only at hst hbuf
    subst hst
    subst hbuf
    constructor
    · intro s2 h
      unfold write at h
      dsimp only at h
      cases hfc : find_newline c with
      | none =>
        rw [hfc] at h
        dsimp only at h
        rw [Prod.mk.injEq] at h
        obtain ⟨hs2, -⟩ := h
        refine Or.inr (Or.inl ⟨by rw [← hs2], by rw [← hs2], ?_⟩)
        rw [find_newline_append_none _ _ hfn, hfc]
        rfl
      | some j =>
        rw [hfc] at h
        dsimp only at h
        cases hv : validate_status (buf ++ c.take (j + 1)) with
        | error e => rw [hv] at h; simp at h
        | ok u =>
          rw [hv] at h
          have := writeHeaders_pending _ _ _ h
          subst this
          refine Or.inr (Or.inr ⟨rfl, j + buf.length, ?_, ?_⟩)
          · rw [find_newline_append_none _ _ hfn, hfc]
            rfl
          · have harith : j + buf.length + 1 = buf.length + (j + 1) := by omega
            rw [harith, List.drop_append]
            simp
    · intro s2 r l h
      unfold write at h
      dsimp only at h
      cases hfc : find_newline c with
      | none =>
        rw [hfc] at h
        simp at h
      | some j =>
        rw [hfc] at h
        dsimp only at h
        cases hv : validate_status (buf ++ c.take (j + 1)) with
        | error e => rw [hv] at h; simp at h
        | ok u =>
          rw [hv] at h
          obtain ⟨idx, hpr, hl⟩ := writeHeaders_done _ _ _ _ _ h
          simp only [List.nil_append] at hpr hl
          have hle := parse_response_le _ _ _ hpr
          have hjlt := find_newline_lt c j hfc
          have harith : j + buf.length + 1 = buf.length + (j + 1) := by omega
          refine ⟨j + buf.length, idx, ?_, ?_, ?_, ?_⟩
          · rw [find_newline_append_none _ _ hfn, hfc]
            rfl
          · rw [harith, List.drop_append]
            exact hpr
          · rw [harith, List.drop_append]
            exact hl
          · subst hl
            simp only [List.length_append, List.length_drop] at hle ⊢
            omega
  · -- Headers: buffer holds the fed bytes past the status line
    obtain ⟨st, buf⟩ := s
    dsimp only at hst hbuf
    subst hst
    subst hbuf
    have hilt := find_newline_lt acc i hfn
    constructor
    · intro s2 h
      unfold write at h
      dsimp only at h
      have := writeHeaders_pending _ _ _ h
      subst this
      refine Or.inr (Or.inr ⟨rfl, i, find_newline_append_some _ _ _ hfn, ?_⟩)
      rw [List.drop_append_of_le_length (by omega)]
    · intro s2 r l h
      unfold write at h
      dsimp only at h
      obtain ⟨idx, hpr, hl⟩ := writeHeaders_done _ _ _ _ _ h
      have hdr : (acc ++ c).drop (i + 1) = acc.drop (i + 1) ++ c :=
        List.drop_append_of_le_length (by omega)
      have hle := parse_response_le _ _ _ hpr
      refine ⟨i, idx, find_newline_append_some _ _ _ hfn, ?_, ?_, ?_⟩
      · rw [hdr]
        exact hpr
      · rw [hdr]
        exact hl
      · subst hl
        simp only [List.length_append, List.length_drop] at hle ⊢
        omega

theorem runAcc_done (cs : List (List Nat)) (s : WebSocketUpgrade) (acc : List Nat)
    (hInv : Inv s acc) (s2 : WebSocketUpgrade) (r : HttpResponse) (left fed : List Nat)
    (h : runAcc s acc cs = (.done s2 r left, fed)) : DoneSpec fed r left := by
  induction cs generalizing s acc with
  | nil => simp [runAcc] at h
  | cons c cs ih =>
    rw [runAcc] at h
    cases hw : write s c with
    | mk s3 res =>
      rw [hw] at h
      cases res with
      | error e => simp at h
      | ok o =>
        cases o with
        | none =>
          exact ih s3 (acc ++ c) ((write_step_inv s acc c hInv).1 s3 hw) h
        | some rl =>
          obtain ⟨r2, l2⟩ := rl
          rw [Prod.mk.injEq, Outcome.done.injEq] at h
          obtain ⟨⟨-, hr, hl⟩, hfed⟩ := h
          subst hfed
          rw [← hr, ← hl]
          exact (write_step_inv s acc c hInv).2 s3 r2 l2 hw

/-- C6: for any sequence of write calls on one fresh parser ending in a
`Done` outcome, the bytes fed across all calls split exactly into the
validated status line (up to and including its line break), the bytes
the tokenizer consumed into the parsed header block, and the returned
leftover — no byte dropped or counted twice. -/
theorem C6_byte_conservation (cs : List (List Nat)) (s2 : WebSocketUpgrade)
    (r : HttpResponse) (left fed : List Nat)
    (h : runAcc .fresh [] cs = (.done s2 r left, fed)) :
    ∃ i idx, find_newline fed = some i ∧
      parse_response (fed.drop (i + 1)) = .ok (idx, r) ∧
      left = (fed.drop (i + 1)).drop idx ∧
      fed.length = (i + 1) + idx + left.length :=
  runAcc_done cs .fresh [] (Or.inl ⟨rfl, rfl⟩) s2 r left fed h

/-- C6 witness: the conservation theorem applied to a concrete chunked
run (22 header bytes plus 1 leftover byte: 15 + 6 + 1). -/
theorem C6_byte_conservation_witness :
    ∃ i idx, find_newline (strBytes "HTTP/1.1 101 A\nB: C\n\nZ") = some i ∧
      parse_response ((strBytes "HTTP/1.1 101 A\nB: C\n\nZ").drop (i + 1))
        = .ok (idx, ⟨101, [([98], [67])]⟩) ∧
      ([90] : List Nat) = ((strBytes "HTTP/1.1 101 A\nB: C\n\nZ").drop (i + 1)).drop idx ∧
      (strBytes "HTTP/1.1 101 A\nB: C\n\nZ").length = (i + 1) + idx + ([90] : List Nat).length :=
  C6_byte_conservation [strBytes "HTTP/1.1 101 A\nB: C\n\nZ"] ⟨.Complete, []⟩
    ⟨101, [([98], [67])]⟩ [90] (strBytes "HTTP/1.1 101 A\nB: C\n\nZ") (by decide)

/-! ## Parsing a rendered header block -/



theorem takeWhile_append_all (p : Nat → Bool) (xs : List Nat) (y : Nat) (ys : List Nat)
    (hall : ∀ b ∈ xs, p b = true) (hy : p y = false) :
    (xs ++ y :: ys).takeWhile p = xs := by
  induction xs with
  | nil => simp [List.takeWhile_cons, hy]
  | cons a t ih =>
    have ha : p a = true := hall a (by simp)
    simp only [List.cons_append, List.takeWhile_cons, ha, if_true]
    simp [ih (fun b hb => hall b (by simp [hb]))]

theorem dropWhile_append_all (p : Nat → Bool) (xs : List Nat) (y : Nat) (ys : List Nat)
    (hall : ∀ b ∈ xs, p b = true) (hy : p y = false) :
    (xs ++ y :: ys).dropWhile p = y :: ys := by
  induction xs with
  | nil => simp [List.dropWhile_cons, hy]
  | cons a t ih =>
    have ha : p a = true := hall a (by simp)
    simp only [List.cons_append, List.dropWhile_cons, ha, if_true]
    simp [ih (fun b hb => hall b (by simp [hb]))]

theorem dropWhile_fix_head (p : Nat → Bool) (v0 : Nat) (v : List Nat)
    (h : (v0 :: v).dropWhile p = v0 :: v) : p v0 = false := by
  by_contra hp
  rw [Bool.not_eq_false] at hp
  rw [List.dropWhile_cons, if_pos (by simp [hp])] at h
  have := congrArg List.length h
  have hle : (v.dropWhile p).length ≤ v.length := (List.dropWhile_suffix _).length_le
  simp at this
  omega

theorem token_not_special (b : Nat) (h : isTokenByte b = true) :
    b ≠ 13 ∧ b ≠ 10 ∧ b ≠ 58 ∧ b ≠ 32 ∧ b ≠ 9 := by
  refine ⟨?_, ?_, ?_, ?_, ?_⟩ <;> rintro rfl <;> simp [isTokenByte] at h

theorem value_byte_ok (b : Nat) (h : b = 9 ∨ (32 ≤ b ∧ b ≤ 126)) : isValueByte b = true := by
  rcases h with rfl | ⟨h1, h2⟩
  · decide
  · simp [isValueByte]
    omega

/-- The value region of a rendered line: dropping leading whitespace
after the colon-space leaves value and tail unchanged, and the value
is exactly the maximal run of value bytes before the line end. -/
theorem parseLine_render (h : HeaderLine) (hwf : WFHeader h) (rest : List Nat) :
    parseLine (renderLine h ++ rest)
      = .line h.name h.value (renderLine h).length rest := by
  obtain ⟨hne, htok, hvb, hlead, htrail⟩ := hwf
  have h58 : isTokenByte 58 = false := by decide
  have hallv : ∀ b ∈ h.value, isValueByte b = true := fun b hb => value_byte_ok b (hvb b hb)
  have hrl : ∀ tail, renderLine h ++ tail = h.name ++ 58 :: 32 :: (h.value ++ lineEnd h.crlf ++ tail) := by
    intro tail
    unfold renderLine
    simp
  have hdweq : ∀ t0 : List Nat, t0 = h.value ++ lineEnd h.crlf ++ rest →
      (t0.head? = some 13 ∨ t0.head? = some 10) → True := fun _ _ _ => trivial
  cases hc : h.crlf
  · -- bare LF line ending
    have hEnd : lineEnd h.crlf = [10] := by rw [hc]; rfl
    have hform : h.value ++ lineEnd h.crlf ++ rest = h.value ++ 10 :: rest := by
      rw [hEnd]; simp
    have hdw : (32 :: (h.value ++ lineEnd h.crlf ++ rest)).dropWhile isWSByte
        = h.value ++ 10 :: rest := by
      rw [List.dropWhile_cons, if_pos (by decide), hform]
      cases hv : h.value with
      | nil =>
        simp only [List.nil_append]
        rw [List.dropWhile_cons, if_neg (by decide)]
      | cons v0 vt =>
        have hv0 : isWSByte v0 = false := dropWhile_fix_head _ _ _ (hv ▸ hlead)
        simp only [List.cons_append]
        rw [List.dropWhile_cons, if_neg (by simp [hv0])]
    have htv : (h.value ++ 10 :: rest).takeWhile isValueByte = h.value :=
      takeWhile_append_all _ _ _ _ hallv (by decide)
    have hdv : (h.value ++ 10 :: rest).dropWhile isValueByte = 10 :: rest :=
      dropWhile_append_all _ _ _ _ hallv (by decide)
    unfold parseLine
    rw [hrl rest, takeWhile_append_all _ _ _ _ htok h58,
      dropWhile_append_all _ _ _ _ htok h58]
    dsimp only
    rw [if_neg (by simp [hne]), hdw, htv, hdv]
    dsimp only
    rw [htrail]
    have hlen : (h.name ++ 58 :: 32 :: (h.value ++ lineEnd h.crlf ++ rest)).length - rest.length
        = (renderLine h).length := by
      rw [← hrl rest]
      simp
    rw [hlen]
  · -- CRLF line ending
    have hEnd : lineEnd h.crlf = [13, 10] := by rw [hc]; rfl
    have hform : h.value ++ lineEnd h.crlf ++ rest = h.value ++ 13 :: 10 :: rest := by
      rw [hEnd]; simp
    have hdw : (32 :: (h.value ++ lineEnd h.crlf ++ rest)).dropWhile isWSByte
        = h.value ++ 13 :: 10 :: rest := by
      rw [List.dropWhile_cons, if_pos (by decide), hform]
      cases hv : h.value with
      | nil =>
        simp only [List.nil_append]
        rw [List.dropWhile_cons, if_neg (by decide)]
      | cons v0 vt =>
        have hv0 : isWSByte v0 = false := dropWhile_fix_head _ _ _ (hv ▸ hlead)
        simp only [List.cons_append]
        rw [List.dropWhile_cons, if_neg (by simp [hv0])]
    have htv : (h.value ++ 13 :: 10 :: rest).takeWhile isValueByte = h.value :=
      takeWhile_append_all _ _ _ _ hallv (by decide)
    have hdv : (h.value ++ 13 :: 10 :: rest).dropWhile isValueByte = 13 :: 10 :: rest :=
      dropWhile_append_all _ _ _ _ hallv (by decide)
    unfold parseLine
    rw [hrl rest, takeWhile_append_all _ _ _ _ htok h58,
      dropWhile_append_all _ _ _ _ htok h58]
    dsimp only
    rw [if_neg (by simp [hne]), hdw, htv, hdv]
    dsimp only
    rw [htrail]
    have hlen : (h.name ++ 58 :: 32 :: (h.value ++ lineEnd h.crlf ++ rest)).length - rest.length
        = (renderLine h).length := by
      rw [← hrl rest]
      simp
    rw [hlen]

theorem renderBlock_cons (h : HeaderLine) (hs : List HeaderLine) (tc : Bool) :
    renderBlock (h :: hs) tc = renderLine h ++ renderBlock hs tc := by
  unfold renderBlock
  simp

theorem name_cons (h : HeaderLine) (hwf : WFHeader h) :
    ∃ n0 nt, h.name = n0 :: nt ∧ isTokenByte n0 = true := by
  cases hname : h.name with
  | nil => exact absurd hname hwf.1
  | cons a b => exact ⟨a, b, rfl, hwf.2.1 a (by rw [hname]; simp)⟩

theorem renderLine_cons_form (h : HeaderLine) (n0 : Nat) (nt : List Nat)
    (hn : h.name = n0 :: nt) (rest2 : List Nat) :
    renderLine h ++ rest2
      = n0 :: (nt ++ [58, 32] ++ h.value ++ lineEnd h.crlf ++ rest2) := by
  unfold renderLine
  rw [hn]
  simp

theorem parseHeaderLinesSucc_render (rec : List Nat → Except HttpError HeadersStatus)
    (h : HeaderLine) (hwf : WFHeader h) (rest2 : List Nat) :
    parseHeaderLinesSucc rec (renderLine h ++ rest2)
      = match rec rest2 with
        | .ok (.complete idx hdrs) =>
          .ok (.complete ((renderLine h).length + idx) ((h.name, h.value) :: hdrs))
        | other => other := by
  obtain ⟨n0, nt, hn, htok0⟩ := name_cons h hwf
  have hsp := token_not_special n0 htok0
  rw [renderLine_cons_form h n0 nt hn rest2]
  unfold parseHeaderLinesSucc
  dsimp only
  rw [if_neg hsp.1, if_neg hsp.2.1]
  rw [← renderLine_cons_form h n0 nt hn rest2, parseLine_render h hwf rest2]

theorem parseHeaderLinesZero_render (h : HeaderLine) (hwf : WFHeader h) (rest2 : List Nat) :
    parseHeaderLinesZero (renderLine h ++ rest2) = .error .tooManyHeaders := by
  obtain ⟨n0, nt, hn, htok0⟩ := name_cons h hwf
  have hsp := token_not_special n0 htok0
  rw [renderLine_cons_form h n0 nt hn rest2]
  unfold parseHeaderLinesZero
  dsimp only
  rw [if_neg hsp.1, if_neg hsp.2.1]

theorem parseHeaderLines_render_ok (hs : List HeaderLine) (tc : Bool)
    (hwf : ∀ h ∈ hs, WFHeader h) (cap : Nat) (hcap : hs.length ≤ cap) (tail : List Nat) :
    parseHeaderLines (renderBlock hs tc ++ tail) cap
      = .ok (.complete (renderBlock hs tc).length
          (hs.map (fun h => (h.name, h.value)))) := by
  induction hs generalizing cap tail with
  | nil =>
    cases tc <;> cases cap <;>
      simp [renderBlock, lineEnd, parseHeaderLines, parseHeaderLinesZero, parseHeaderLinesSucc]
  | cons h hs ih =>
    cases cap with
    | zero => simp at hcap
    | succ c2 =>
      rw [renderBlock_cons, List.append_assoc, parseHeaderLines]
      rw [parseHeaderLinesSucc_render _ h (hwf h (by simp)) _]
      rw [ih (fun h2 hh => hwf h2 (by simp [hh])) c2 (by simp at hcap; omega) tail]
      simp [List.length_append]

theorem parseHeaderLines_render_tooMany (hs : List HeaderLine) (tc : Bool)
    (hwf : ∀ h ∈ hs, WFHeader h) (cap : Nat) (hcap : cap < hs.length) (tail : List Nat) :
    parseHeaderLines (renderBlock hs tc ++ tail) cap = .error .tooManyHeaders := by
  induction hs generalizing cap tail with
  | nil => simp at hcap
  | cons h hs ih =>
    cases cap with
    | zero =>
      rw [renderBlock_cons, List.append_assoc, parseHeaderLines]
      exact parseHeaderLinesZero_render h (hwf h (by simp)) _
    | succ c2 =>
      rw [renderBlock_cons, List.append_assoc, parseHeaderLines]
      rw [parseHeaderLinesSucc_render _ h (hwf h (by simp)) _]
      rw [ih (fun h2 hh => hwf h2 (by simp [hh])) c2 (by simp at hcap ⊢; omega) tail]

theorem asciiValid (l : List Nat) (h : ∀ b ∈ l, b ≤ 127) : validUtf8 l = true := by
  unfold validUtf8
  suffices H : ∀ fuel l2, l2.length ≤ fuel → (∀ b ∈ l2, b ≤ 127) →
      validUtf8Aux fuel l2 = true from H l.length l le_rfl h
  intro fuel
  induction fuel with
  | zero =>
    intro l2 hl hall
    cases l2 with
    | nil => rfl
    | cons b r => simp at hl
  | succ f ih =>
    intro l2 hl hall
    cases l2 with
    | nil => rfl
    | cons b r =>
      rw [validUtf8Aux]
      have hb : b ≤ 127 := hall b (by simp)
      have hstep : utf8Step (b :: r) = some r := by
        unfold utf8Step
        dsimp only
        rw [if_pos hb]
      rw [hstep]
      exact ih r (by simp at hl; omega) (fun x hx => hall x (by simp [hx]))

theorem parse_response_render_ok (hs : List HeaderLine) (tc : Bool)
    (hwf : ∀ h ∈ hs, WFHeader h) (hle : hs.length ≤ 16) (tail : List Nat) :
    parse_response (renderBlock hs tc ++ tail)
      = .ok ((renderBlock hs tc).length, respOf hs) := by
  unfold parse_response
  rw [parseHeaderLines_render_ok hs tc hwf 16 hle tail]
  dsimp only
  rw [if_pos ?hutf]
  case hutf =>
    rw [List.all_eq_true]
    intro p hp
    rw [List.mem_map] at hp
    obtain ⟨h2, hh2, hph⟩ := hp
    subst hph
    dsimp only
    refine asciiValid _ (fun b hb => ?_)
    rcases (hwf h2 hh2).2.2.1 b hb with rfl | ⟨h1, h2'⟩ <;> omega
  unfold respOf
  rw [Except.ok.injEq, Prod.mk.injEq]
  refine ⟨rfl, ?_⟩
  rw [HttpResponse.mk.injEq]
  refine ⟨rfl, ?_⟩
  rw [List.map_map]
  rfl

theorem parse_response_render_tooMany (hs : List HeaderLine) (tc : Bool)
    (hwf : ∀ h ∈ hs, WFHeader h) (hgt : 16 < hs.length) (tail : List Nat) :
    parse_response (renderBlock hs tc ++ tail) = .error .tooManyHeaders := by
  unfold parse_response
  rw [parseHeaderLines_render_tooMany hs tc hwf 16 hgt tail]

/-! ## Terminator occurrences in a rendered block -/



theorem containsSeq_iff (n hay : List Nat) :
    containsSeq n hay = true ↔ ∃ u v, hay = u ++ n ++ v := by
  induction hay with
  | nil =>
    unfold containsSeq
    rw [List.isEmpty_iff]
    constructor
    · rintro rfl
      exact ⟨[], [], rfl⟩
    · rintro ⟨u, v, huv⟩
      have h2 : n = [] := by
        have h3 := huv.symm
        rw [List.append_eq_nil, List.append_eq_nil] at h3
        exact h3.1.2
      rw [h2]
  | cons b t ih =>
    unfold containsSeq
    rw [Bool.or_eq_true, List.isPrefixOf_iff_prefix, ih]
    constructor
    · rintro (⟨w, hw⟩ | ⟨u, v, huv⟩)
      · exact ⟨[], w, by simp [← hw]⟩
      · exact ⟨b :: u, v, by simp [huv]⟩
    · rintro ⟨u, v, huv⟩
      cases u with
      | nil =>
        left
        exact ⟨v, by simpa using huv.symm⟩
      | cons u0 ut =>
        right
        rw [List.cons_append, List.cons_append, List.cons.injEq] at huv
        exact ⟨ut, v, huv.2⟩

theorem suffix_contains (n l : List Nat) (h : n.isSuffixOf l = true) :
    containsSeq n l = true := by
  rw [List.isSuffixOf_iff_suffix] at h
  obtain ⟨u, hu⟩ := h
  rw [containsSeq_iff]
  exact ⟨u, [], by simp [hu]⟩

/-- All bytes of the `name: value` part of a rendered line are neither
LF nor CR. -/
theorem renderLine_core_bytes (h : HeaderLine) (hwf : WFHeader h) :
    ∀ b ∈ h.name ++ [58, 32] ++ h.value, b ≠ 10 ∧ b ≠ 13 := by
  intro b hb
  simp only [List.append_assoc, List.mem_append, List.mem_cons, List.mem_singleton] at hb
  rcases hb with hn | (rfl | rfl | h0) | hv
  · have := token_not_special b (hwf.2.1 b hn)
    exact ⟨this.2.1, this.1⟩
  · omega
  · omega
  · simp at h0
  · rcases hwf.2.2.1 b hv with rfl | ⟨h1, h2⟩ <;> omega

/-- A nonempty suffix of a rendered line starting with LF or CR is the
line terminator itself (or its final LF). -/
theorem line_suffix_class (h : HeaderLine) (hwf : WFHeader h) (w : List Nat)
    (hsuf : ∃ u, u ++ w = renderLine h) (hwne : w ≠ [])
    (hhead : ∃ b r, w = b :: r ∧ (b = 10 ∨ b = 13)) :
    w = [10] ∨ w = [13, 10] := by
  obtain ⟨u, hu⟩ := hsuf
  obtain ⟨b, r, rfl, hb⟩ := hhead
  have hcore := renderLine_core_bytes h hwf
  have hform : renderLine h = (h.name ++ [58, 32] ++ h.value) ++ lineEnd h.crlf := by
    unfold renderLine
    simp
  rw [hform] at hu
  rcases List.append_eq_append_iff.mp hu with ⟨a2, hcore2, hw⟩ | ⟨c2, hu2, hend⟩
  · -- b :: r = a2 ++ lineEnd with a2 inside the core
    cases a2 with
    | nil =>
      rw [List.nil_append] at hw
      cases hc : h.crlf <;> rw [hc] at hw <;> simp [lineEnd] at hw <;> simp [hw]
    | cons a0 at2 =>
      rw [List.cons_append, List.cons.injEq] at hw
      have : a0 ∈ h.name ++ [58, 32] ++ h.value := by
        rw [hcore2]
        simp
      have hne := hcore a0 this
      rcases hb with rfl | rfl
      · exact absurd hw.1.symm hne.1
      · exact absurd hw.1.symm hne.2
  · -- b :: r is a suffix of the line terminator
    cases hc : h.crlf <;> rw [hc] at hend
    · -- lineEnd = [10]
      have hend2 : ([10] : List Nat) = c2 ++ b :: r := hend
      cases c2 with
      | nil =>
        left
        simpa using hend2.symm
      | cons c0 ct =>
        rw [List.cons_append, List.cons.injEq] at hend2
        obtain ⟨-, hend3⟩ := hend2
        have h4 := hend3.symm
        rw [List.append_eq_nil] at h4
        exact absurd h4.2 (by simp)
    · -- lineEnd = [13, 10]
      have hend2 : ([13, 10] : List Nat) = c2 ++ b :: r := hend
      cases c2 with
      | nil =>
        right
        simpa using hend2.symm
      | cons c0 ct =>
        rw [List.cons_append, List.cons.injEq] at hend2
        obtain ⟨-, hend3⟩ := hend2
        cases ct with
        | nil =>
          left
          simpa using hend3.symm
        | cons c1 ct2 =>
          rw [List.cons_append, List.cons.injEq] at hend3
          obtain ⟨-, hend4⟩ := hend3
          have h4 := hend4.symm
          rw [List.append_eq_nil] at h4
          exact absurd h4.2 (by simp)

/-- If a rendered block starts with LF or CR, it has no header lines. -/
theorem renderBlock_head (hs : List HeaderLine) (tc : Bool)
    (hwf : ∀ h ∈ hs, WFHeader h) (b : Nat) (r : List Nat)
    (hb : renderBlock hs tc = b :: r) (h1013 : b = 10 ∨ b = 13) :
    hs = [] ∧ renderBlock hs tc = lineEnd tc := by
  cases hs with
  | nil => exact ⟨rfl, by unfold renderBlock; simp⟩
  | cons h hs2 =>
    exfalso
    obtain ⟨n0, nt, hn, htok⟩ := name_cons h (hwf h (by simp))
    rw [renderBlock_cons] at hb
    have hform := renderLine_cons_form h n0 nt hn (renderBlock hs2 tc)
    rw [hform, List.cons.injEq] at hb
    have hsp := token_not_special n0 htok
    rcases h1013 with rfl | rfl
    · exact hsp.2.1 hb.1
    · exact hsp.1 hb.1

/-- Any occurrence of either header-block terminator inside a rendered
block ends exactly at the end of the block: the trailing part `v` of a
decomposition around the needle is empty. -/
theorem block_no_early_term (hs : List HeaderLine) (tc : Bool)
    (hwf : ∀ h ∈ hs, WFHeader h) (needle : List Nat)
    (hneedle : needle = [10, 10] ∨ needle = [13, 10, 13, 10])
    (u v : List Nat) (heq : renderBlock hs tc = u ++ needle ++ v) : v = [] := by
  induction hs generalizing u v with
  | nil =>
    exfalso
    have hlen := congrArg List.length heq
    have hnl : 2 ≤ needle.length := by rcases hneedle with rfl | rfl <;> simp
    cases tc
    · have hb : renderBlock [] false = [10] := rfl
      rw [hb] at heq hlen
      simp at hlen
      omega
    · have hb : renderBlock [] true = [13, 10] := rfl
      rw [hb] at heq hlen
      simp at hlen
      have hu : u = [] := List.length_eq_zero.mp (by omega)
      have hv : v = [] := List.length_eq_zero.mp (by omega)
      subst hu hv
      rcases hneedle with rfl | rfl
      · simp at heq
      · have h2 := congrArg List.length heq
        simp at h2
  | cons h hs2 ih =>
    have hwfh := hwf h (by simp)
    rw [renderBlock_cons, List.append_assoc] at heq
    rcases List.append_eq_append_iff.mp heq with ⟨a2, hu, hb2⟩ | ⟨c2, hu, hend⟩
    · rw [← List.append_assoc] at hb2
      exact ih (fun h2 hh => hwf h2 (by simp [hh])) a2 v hb2
    · have hn2 : ∃ b r, needle = b :: r ∧ (b = 10 ∨ b = 13) := by
        rcases hneedle with rfl | rfl
        · exact ⟨10, [10], rfl, Or.inl rfl⟩
        · exact ⟨13, [10, 13, 10], rfl, Or.inr rfl⟩
      cases c2 with
      | nil =>
        rw [List.nil_append] at hend
        obtain ⟨b, r, hbr, hb1013⟩ := hn2
        have hbhead : renderBlock hs2 tc = b :: (r ++ v) := by
          rw [← hend, hbr]
          simp
        obtain ⟨hnil, hlineEnd⟩ :=
          renderBlock_head hs2 tc (fun h2 hh => hwf h2 (by simp [hh])) b (r ++ v) hbhead hb1013
        rw [hlineEnd] at hend
        exfalso
        rcases hneedle with rfl | rfl
        · cases tc
          · have h2 := congrArg List.length hend
            simp [lineEnd] at h2
          · have h13 : lineEnd true = [13, 10] := rfl
            rw [h13] at hend
            simp at hend
        · cases tc
          · have h2 := congrArg List.length hend
            simp [lineEnd] at h2
          · have h2 := congrArg List.length hend
            simp [lineEnd] at h2
      | cons c0 ct =>
        obtain ⟨b, r, hbr, hb1013⟩ := hn2
        have hcls : (c0 :: ct) = [10] ∨ (c0 :: ct) = [13, 10] := by
          refine line_suffix_class h hwfh (c0 :: ct) ⟨u, hu.symm⟩ (by simp) ?_
          have hc0 : c0 = b := by
            rw [hbr, List.cons_append] at hend
            exact ((List.cons.injEq _ _ _ _).mp hend).1.symm
          exact ⟨c0, ct, rfl, by rw [hc0]; exact hb1013⟩
        rcases hcls with hcl | hcl <;> rw [hcl] at hend <;>
          rcases hneedle with rfl | rfl
        · -- c2 = [10], needle = [10,10]
          have hend2 : (10 :: v : List Nat) = renderBlock hs2 tc := by simpa using hend
          obtain ⟨hnil, hlineEnd⟩ :=
            renderBlock_head hs2 tc (fun h2 hh => hwf h2 (by simp [hh])) 10 v hend2.symm
              (Or.inl rfl)
          rw [hlineEnd] at hend2
          cases tc
          · have h10 : lineEnd false = [10] := rfl
            rw [h10] at hend2
            simpa using hend2
          · exfalso
            have h13 : lineEnd true = [13, 10] := rfl
            rw [h13] at hend2
            simp at hend2
        · -- c2 = [10], needle = [13,10,13,10]: heads differ
          exfalso
          simp at hend
        · -- c2 = [13,10], needle = [10,10]: heads differ
          exfalso
          simp at hend
        · -- c2 = [13,10], needle = [13,10,13,10]
          have hend2 : (13 :: 10 :: v : List Nat) = renderBlock hs2 tc := by simpa using hend
          obtain ⟨hnil, hlineEnd⟩ :=
            renderBlock_head hs2 tc (fun h2 hh => hwf h2 (by simp [hh])) 13 (10 :: v)
              hend2.symm (Or.inr rfl)
          rw [hlineEnd] at hend2
          cases tc
          · exfalso
            have h10 : lineEnd false = [10] := rfl
            rw [h10] at hend2
            simp at hend2
          · have h13 : lineEnd true = [13, 10] := rfl
            rw [h13] at hend2
            simpa using hend2

/-- No proper prefix of a rendered block contains either terminator. -/
theorem containsSeq_take_block (hs : List HeaderLine) (tc : Bool)
    (hwf : ∀ h ∈ hs, WFHeader h) (needle : List Nat)
    (hneedle : needle = [10, 10] ∨ needle = [13, 10, 13, 10])
    (m : Nat) (hm : m < (renderBlock hs tc).length) :
    containsSeq needle ((renderBlock hs tc).take m) = false := by
  by_contra hcon
  rw [Bool.not_eq_false, containsSeq_iff] at hcon
  obtain ⟨u, v, huv⟩ := hcon
  have hsplit : renderBlock hs tc
      = u ++ needle ++ (v ++ (renderBlock hs tc).drop m) := by
    conv_lhs => rw [← List.take_append_drop m (renderBlock hs tc)]
    rw [huv]
    simp
  have hv := block_no_early_term hs tc hwf needle hneedle u (v ++ (renderBlock hs tc).drop m) hsplit
  rw [List.append_eq_nil] at hv
  have hdrop : (renderBlock hs tc).drop m = [] := hv.2
  rw [List.drop_eq_nil_iff] at hdrop
  omega

/-- A completable rendered block ends in one of the two terminators. -/
theorem block_ends_term (hs : List HeaderLine) (tc : Bool)
    (hne : hs ≠ [])
    (hlast : tc = true → ∃ hl, hs.getLast? = some hl ∧ hl.crlf = true) :
    (∃ front, renderBlock hs tc = front ++ [13, 10, 13, 10]) ∨
    (∃ front, renderBlock hs tc = front ++ [10, 10]) := by
  induction hs with
  | nil => exact absurd rfl hne
  | cons h hs2 ih =>
    cases hs2 with
    | nil =>
      cases hc : h.crlf
      · -- last line bare; tc must be false by hlast
        cases htc : tc
        · right
          refine ⟨h.name ++ [58, 32] ++ h.value, ?_⟩
          rw [renderBlock_cons]
          unfold renderBlock renderLine
          rw [hc]
          simp [lineEnd]
        · obtain ⟨hl, hhl, hhlc⟩ := hlast htc
          simp at hhl
          rw [← hhl] at hhlc
          rw [hc] at hhlc
          simp at hhlc
      · cases htc : tc
        · right
          refine ⟨h.name ++ [58, 32] ++ h.value ++ [13], ?_⟩
          rw [renderBlock_cons]
          unfold renderBlock renderLine
          rw [hc]
          simp [lineEnd]
        · left
          refine ⟨h.name ++ [58, 32] ++ h.value, ?_⟩
          rw [renderBlock_cons]
          unfold renderBlock renderLine
          rw [hc]
          simp [lineEnd]
    | cons h2 hs3 =>
      have hlast2 : tc = true → ∃ hl, (h2 :: hs3).getLast? = some hl ∧ hl.crlf = true := by
        intro htc
        obtain ⟨hl, hhl, hhlc⟩ := hlast htc
        rw [List.getLast?_cons_cons] at hhl
        exact ⟨hl, hhl, hhlc⟩
      rcases ih (by simp) hlast2 with ⟨front, hf⟩ | ⟨front, hf⟩
      · left
        refine ⟨renderLine h ++ front, ?_⟩
        rw [renderBlock_cons, hf]
        simp
      · right
        refine ⟨renderLine h ++ front, ?_⟩
        rw [renderBlock_cons, hf]
        simp

/-- When the buffer contains a terminator, `writeHeaders` parses it. -/
theorem writeHeaders_parse (buf bytes : List Nat)
    (hhit : containsSeq [13, 10, 13, 10] (buf ++ bytes) = true ∨
      containsSeq [10, 10] (buf ++ bytes) = true) :
    writeHeaders buf bytes
      = match parse_response (buf ++ bytes) with
        | .error e => (⟨.Headers, buf ++ bytes⟩, .error e)
        | .ok (index, response) =>
          (⟨.Complete, []⟩, .ok (some (response, (buf ++ bytes).drop index))) := by
  unfold writeHeaders
  by_cases h1 : containsSeq [13, 10, 13, 10] (buf ++ bytes) = true
  · rw [if_pos h1]
  · rw [if_neg h1, if_pos (hhit.resolve_left h1)]

/-- When the buffer contains neither terminator, `writeHeaders` pends. -/
theorem writeHeaders_no_hit (buf bytes : List Nat)
    (h1 : containsSeq [13, 10, 13, 10] (buf ++ bytes) = false)
    (h2 : containsSeq [10, 10] (buf ++ bytes) = false) :
    writeHeaders buf bytes = (⟨.Headers, buf ++ bytes⟩, .ok none) := by
  unfold writeHeaders
  rw [if_neg (by simp [h1]), if_neg (by simp [h2])]

/-! ## Running the machine over a rendered response stream -/



theorem find_newline_all_ne (l : List Nat) (h : ∀ b ∈ l, b ≠ 10) : find_newline l = none := by
  induction l with
  | nil => rfl
  | cons b t ih =>
    rw [find_newline_cons, if_neg (h b (by simp)), ih (fun x hx => h x (by simp [hx]))]
    rfl

theorem find_newline_first (p q : List Nat) (hp : ∀ b ∈ p, b ≠ 10) :
    find_newline (p ++ 10 :: q) = some p.length := by
  induction p with
  | nil => simp [find_newline_cons]
  | cons b t ih =>
    rw [List.cons_append, find_newline_cons, if_neg (hp b (by simp)),
      ih (fun x hx => hp x (by simp [hx]))]
    rfl

/-- Splitting a chunk off the remainder of a stream. -/
theorem chunk_slice (X : List Nat) (m : Nat) (c rest : List Nat)
    (h : c ++ rest = X.drop m) :
    X.take m ++ c = X.take (m + c.length) ∧ rest = X.drop (m + c.length) := by
  have hc : c = (X.drop m).take c.length := by
    rw [← h, List.take_left]
  have hrest : rest = (X.drop m).drop c.length := by
    rw [← h, List.drop_left]
  constructor
  · conv_lhs => rw [hc]
    rw [List.take_add]
  · rw [hrest, List.drop_drop, Nat.add_comm]

/-- Bytes of an inner slice of the no-newline region. -/
theorem slice_no_newline (p : List Nat) (x : Nat) (q : List Nat) (n k : Nat)
    (hp : ∀ b ∈ p, b ≠ 10) (hn : n + k ≤ p.length) :
    ∀ b ∈ ((p ++ x :: q).drop n).take k, b ≠ 10 := by
  intro b hb
  have hdrop : (p ++ x :: q).drop n = p.drop n ++ x :: q :=
    List.drop_append_of_le_length (by omega)
  rw [hdrop, List.take_append_of_le_length (by simp; omega)] at hb
  exact hp b (((List.take_sublist _ _).trans (List.drop_sublist _ _)).subset hb)

/-- A slice crossing the first newline. -/
theorem slice_cross (p : List Nat) (q : List Nat) (n k : Nat)
    (hn : n ≤ p.length) (hk : p.length < n + k) :
    ((p ++ 10 :: q).drop n).take k
      = p.drop n ++ 10 :: q.take (n + k - p.length - 1) := by
  have hdrop : (p ++ 10 :: q).drop n = p.drop n ++ 10 :: q :=
    List.drop_append_of_le_length (by omega)
  rw [hdrop, List.take_append_eq_append_take,
    List.take_of_length_le (l := p.drop n) (by simp; omega)]
  congr 1
  have hpos : k - (p.drop n).length = (n + k - p.length - 1) + 1 := by
    simp
    omega
  rw [hpos]
  rfl

/-- In the `Headers` state holding a proper prefix of the block, a
chunk that still does not complete the block leaves the parser pending
with the longer prefix buffered. -/
theorem headersStep_pending (hs : List HeaderLine) (tc : Bool) (T : List Nat)
    (hwf : ∀ h ∈ hs, WFHeader h) (m : Nat) (c : List Nat)
    (hc : (renderBlock hs tc).take m ++ c
      = (renderBlock hs tc ++ T).take (m + c.length))
    (hlt : m + c.length < (renderBlock hs tc).length) :
    writeHeaders ((renderBlock hs tc).take m) c
      = (⟨.Headers, (renderBlock hs tc).take (m + c.length)⟩, .ok none) := by
  have htake : (renderBlock hs tc ++ T).take (m + c.length)
      = (renderBlock hs tc).take (m + c.length) :=
    List.take_append_of_le_length (by omega)
  rw [htake] at hc
  have h1 := containsSeq_take_block hs tc hwf [13, 10, 13, 10] (Or.inr rfl) (m + c.length) hlt
  have h2 := containsSeq_take_block hs tc hwf [10, 10] (Or.inl rfl) (m + c.length) hlt
  rw [← hc] at h1 h2
  rw [writeHeaders_no_hit _ _ h1 h2, hc]

/-- In the `Headers` state, a chunk that completes the block triggers
the parse of the whole buffer. -/
theorem headersStep_hit (hs : List HeaderLine) (tc : Bool) (T : List Nat)
    (hne : hs ≠ [])
    (hlast : tc = true → ∃ hl, hs.getLast? = some hl ∧ hl.crlf = true)
    (m : Nat) (c : List Nat)
    (hc : (renderBlock hs tc).take m ++ c
      = (renderBlock hs tc ++ T).take (m + c.length))
    (hge : (renderBlock hs tc).length ≤ m + c.length) :
    writeHeaders ((renderBlock hs tc).take m) c
      = match parse_response
          (renderBlock hs tc ++ T.take (m + c.length - (renderBlock hs tc).length)) with
        | .error e =>
          (⟨.Headers,
            renderBlock hs tc ++ T.take (m + c.length - (renderBlock hs tc).length)⟩, .error e)
        | .ok (index, response) =>
          (⟨.Complete, []⟩,
            .ok (some (response,
              (renderBlock hs tc ++ T.take (m + c.length - (renderBlock hs tc).length)).drop index))) := by
  have hbuf : (renderBlock hs tc).take m ++ c
      = renderBlock hs tc ++ T.take (m + c.length - (renderBlock hs tc).length) := by
    rw [hc, List.take_append_eq_append_take,
      List.take_of_length_le (l := renderBlock hs tc) (by omega)]
  have hhit : containsSeq [13, 10, 13, 10]
        ((renderBlock hs tc).take m ++ c) = true ∨
      containsSeq [10, 10] ((renderBlock hs tc).take m ++ c) = true := by
    rcases block_ends_term hs tc hne hlast with ⟨front, hf⟩ | ⟨front, hf⟩
    · left
      rw [hbuf, containsSeq_iff]
      exact ⟨front, T.take (m + c.length - (renderBlock hs tc).length), by rw [hf]⟩
    · right
      rw [hbuf, containsSeq_iff]
      exact ⟨front, T.take (m + c.length - (renderBlock hs tc).length), by rw [hf]⟩
  rw [writeHeaders_parse _ _ hhit, hbuf]

theorem write_headers_state (buf bytes : List Nat) :
    write ⟨.Headers, buf⟩ bytes = writeHeaders buf bytes := rfl

theorem runHeaders_ok (hs : List HeaderLine) (tc : Bool) (T : List Nat)
    (hwf : ∀ h ∈ hs, WFHeader h) (hle : hs.length ≤ 16) (hne : hs ≠ [])
    (hlast : tc = true → ∃ hl, hs.getLast? = some hl ∧ hl.crlf = true) :
    ∀ cs m, m < (renderBlock hs tc).length →
      cs.flatten = (renderBlock hs tc ++ T).drop m →
      ∃ d, d ≤ T.length ∧
        runWrites ⟨.Headers, (renderBlock hs tc).take m⟩ cs
          = .done ⟨.Complete, []⟩ (respOf hs) (T.take d) := by
  intro cs
  induction cs with
  | nil =>
    intro m hm hflat
    exfalso
    have hlen := congrArg List.length hflat
    simp at hlen
    omega
  | cons c cs2 ih =>
    intro m hm hflat
    rw [List.flatten_cons] at hflat
    obtain ⟨hc, hrest⟩ := chunk_slice _ m c _ hflat
    rw [List.take_append_of_le_length (le_of_lt hm)] at hc
    have hclen : m + c.length ≤ (renderBlock hs tc ++ T).length := by
      have hl2 := congrArg List.length hflat
      simp at hl2 ⊢
      omega
    rw [runWrites, write_headers_state]
    by_cases hcase : m + c.length < (renderBlock hs tc).length
    · rw [headersStep_pending hs tc T hwf m c hc hcase]
      exact ih (m + c.length) hcase hrest
    · push_neg at hcase
      rw [headersStep_hit hs tc T hne hlast m c hc hcase,
        parse_response_render_ok hs tc hwf hle _]
      dsimp only
      rw [List.drop_left]
      refine ⟨m + c.length - (renderBlock hs tc).length, ?_, rfl⟩
      simp at hclen
      omega

theorem runHeaders_tooMany (hs : List HeaderLine) (tc : Bool) (T : List Nat)
    (hwf : ∀ h ∈ hs, WFHeader h) (hgt : 16 < hs.length) (hne : hs ≠ [])
    (hlast : tc = true → ∃ hl, hs.getLast? = some hl ∧ hl.crlf = true) :
    ∀ cs m, m < (renderBlock hs tc).length →
      cs.flatten = (renderBlock hs tc ++ T).drop m →
      ∃ b2, runWrites ⟨.Headers, (renderBlock hs tc).take m⟩ cs
        = .failed ⟨.Headers, b2⟩ .tooManyHeaders := by
  intro cs
  induction cs with
  | nil =>
    intro m hm hflat
    exfalso
    have hlen := congrArg List.length hflat
    simp at hlen
    omega
  | cons c cs2 ih =>
    intro m hm hflat
    rw [List.flatten_cons] at hflat
    obtain ⟨hc, hrest⟩ := chunk_slice _ m c _ hflat
    rw [List.take_append_of_le_length (le_of_lt hm)] at hc
    rw [runWrites, write_headers_state]
    by_cases hcase : m + c.length < (renderBlock hs tc).length
    · rw [headersStep_pending hs tc T hwf m c hc hcase]
      exact ih (m + c.length) hcase hrest
    · push_neg at hcase
      rw [headersStep_hit hs tc T hne hlast m c hc hcase,
        parse_response_render_tooMany hs tc hwf hgt _]
      exact ⟨_, rfl⟩

theorem runWrites_headers_chunk (buf : List Nat) (c : List Nat) (cs : List (List Nat)) :
    runWrites ⟨.Headers, buf⟩ (c :: cs)
      = match writeHeaders buf c with
        | (s2, .ok none) => runWrites s2 cs
        | (s2, .ok (some (r, l))) => .done s2 r l
        | (s2, .error e) => .failed s2 e := rfl

/-- Status-line accumulation phase: starting in `StatusLine` with the
first `n` bytes of `pre ++ \n ++ post` buffered (`n` within the
newline-free prefix `pre`), and the remaining stream delivered in any
chunks: once the newline arrives the full status line `pre ++ \n` is
validated; on failure the run fails with that error, on success the run
continues exactly as a fresh `Headers`-state run over chunks carrying
`post`. -/
theorem statusRun (pre post : List Nat) (hpre : ∀ b ∈ pre, b ≠ 10) :
    ∀ cs n, n ≤ pre.length →
      cs.flatten = (pre ++ 10 :: post).drop n →
      (∀ e, validate_status (pre ++ [10]) = .error e →
        runWrites ⟨.StatusLine, (pre ++ 10 :: post).take n⟩ cs
          = .failed ⟨.StatusLine, pre ++ [10]⟩ e) ∧
      (∀ u, validate_status (pre ++ [10]) = .ok u →
        ∃ ds, ds.flatten = post ∧
          runWrites ⟨.StatusLine, (pre ++ 10 :: post).take n⟩ cs
            = runWrites ⟨.Headers, []⟩ ds) := by
  intro cs
  induction cs with
  | nil =>
    intro n hn hflat
    exfalso
    have hlen := congrArg List.length hflat
    simp at hlen
    omega
  | cons c cs2 ih =>
    intro n hn hflat
    rw [List.flatten_cons] at hflat
    obtain ⟨hc, hrest⟩ := chunk_slice _ n c _ hflat
    have hcval : c = ((pre ++ 10 :: post).drop n).take c.length := by
      rw [← hflat, List.take_left]
    by_cases hcase : n + c.length ≤ pre.length
    · -- chunk entirely inside the newline-free prefix
      have hnone : find_newline c = none := by
        refine find_newline_all_ne c ?_
        intro b hb
        rw [hcval] at hb
        exact slice_no_newline pre 10 post n c.length hpre hcase b hb
      have hwrite : write ⟨.StatusLine, (pre ++ 10 :: post).take n⟩ c
          = (⟨.StatusLine, (pre ++ 10 :: post).take (n + c.length)⟩, .ok none) := by
        unfold write
        dsimp only
        rw [hnone]
        dsimp only
        rw [hc]
      rw [runWrites, hwrite]
      exact ih (n + c.length) hcase hrest
    · -- chunk crosses the newline
      push_neg at hcase
      have hcross : c = pre.drop n ++ 10 :: post.take (n + c.length - pre.length - 1) := by
        conv_lhs => rw [hcval]
        exact slice_cross pre post n c.length hn hcase
      obtain ⟨k, hk⟩ : ∃ k, n + c.length - pre.length - 1 = k := ⟨_, rfl⟩
      rw [hk] at hcross
      have hfind : find_newline c = some (pre.length - n) := by
        rw [hcross]
        have h2 := find_newline_first (pre.drop n) (post.take k)
          (fun b hb => hpre b (List.mem_of_mem_drop hb))
        rw [h2]
        simp
      have hjlen : pre.length - n + 1 = (pre.drop n).length + 1 := by simp
      have hstatus : c.take (pre.length - n + 1) = pre.drop n ++ [10] := by
        rw [hcross, hjlen, List.take_append_eq_append_take,
          List.take_of_length_le (l := pre.drop n) (by omega)]
        congr 1
        have h3 : (pre.drop n).length + 1 - (pre.drop n).length = 1 := by omega
        rw [h3]
        rfl
      have hbuf2 : (pre ++ 10 :: post).take n ++ c.take (pre.length - n + 1)
          = pre ++ [10] := by
        rw [hstatus, List.take_append_of_le_length hn, ← List.append_assoc,
          List.take_append_drop]
      have hrestc : c.drop (pre.length - n + 1) = post.take k := by
        conv_lhs => rw [hcross]
        rw [hjlen, List.drop_append_eq_append_drop,
          List.drop_of_length_le (l := pre.drop n) (by omega)]
        have h3 : (pre.drop n).length + 1 - (pre.drop n).length = 1 := by omega
        rw [List.nil_append, h3]
        rfl
      have hflat2 : c.drop (pre.length - n + 1) ++ cs2.flatten = post := by
        rw [hrestc, hrest]
        have hsplit : pre ++ 10 :: post = (pre ++ [10]) ++ post := by simp
        rw [hsplit, List.drop_append_eq_append_drop,
          List.drop_of_length_le (l := pre ++ [10]) (by simp; omega), List.nil_append]
        have harith : n + c.length - (pre ++ [10]).length = k := by
          simp
          omega
        rw [harith, List.take_append_drop]
      cases hv : validate_status (pre ++ [10]) with
      | error e0 =>
        have hwrite : write ⟨.StatusLine, (pre ++ 10 :: post).take n⟩ c
            = (⟨.StatusLine, pre ++ [10]⟩, .error e0) := by
          unfold write
          dsimp only
          rw [hfind]
          dsimp only
          rw [hbuf2, hv]
        constructor
        · intro e he
          rw [Except.error.injEq] at he
          subst he
          rw [runWrites, hwrite]
        · intro u hu
          exact absurd hu (by simp)
      | ok u0 =>
        have hwrite : write ⟨.StatusLine, (pre ++ 10 :: post).take n⟩ c
            = writeHeaders [] (c.drop (pre.length - n + 1)) := by
          unfold write
          dsimp only
          rw [hfind]
          dsimp only
          rw [hbuf2, hv]
        constructor
        · intro e he
          exact absurd he (by simp)
        · intro u hu
          refine ⟨c.drop (pre.length - n + 1) :: cs2, ?_, ?_⟩
          · rw [List.flatten_cons]
            exact hflat2
          · rw [runWrites, hwrite, runWrites_headers_chunk]

/-- First-chunk analysis of a fresh run over a stream whose first
newline terminates the status line `pre ++ \n`: an invalid status line
fails the run with its error; a valid one either continues as a
`Headers`-state run over chunks carrying `post`, or (single-chunk fast
path) directly parses a prefix of `post` ending in `\r\n\r\n`. -/
theorem runFresh (pre post : List Nat) (hpre : ∀ b ∈ pre, b ≠ 10)
    (cs : List (List Nat)) (hflat : cs.flatten = pre ++ 10 :: post) :
    (∀ e, validate_status (pre ++ [10]) = .error e →
      ∃ s, runWrites .fresh cs = .failed s e) ∧
    (∀ u, validate_status (pre ++ [10]) = .ok u →
      (∃ ds, ds.flatten = post ∧ runWrites .fresh cs = runWrites ⟨.Headers, []⟩ ds) ∨
      (∃ rest rpost, rest ++ rpost = post ∧ [13, 10, 13, 10].isSuffixOf rest = true ∧
        runWrites .fresh cs
          = match parse_response rest with
            | .error e => .failed ⟨.Initial, []⟩ e
            | .ok (idx, r) => .done ⟨.Initial, []⟩ r (rest.drop idx))) := by
  cases cs with
  | nil =>
    exfalso
    have hlen := congrArg List.length hflat
    simp at hlen
    omega
  | cons c cs2 =>
    rw [List.flatten_cons] at hflat
    have hcval : c = (pre ++ 10 :: post).take c.length := by
      rw [← hflat, List.take_left]
    by_cases hcase : c.length ≤ pre.length
    · -- first chunk inside the newline-free prefix
      have hnone : find_newline c = none := by
        refine find_newline_all_ne c ?_
        intro b hb
        rw [hcval] at hb
        refine hpre b ?_
        rw [List.take_append_of_le_length hcase] at hb
        exact (List.take_sublist _ _).subset hb
      have hwrite : write .fresh c = (⟨.StatusLine, c⟩, .ok none) := by
        unfold write WebSocketUpgrade.fresh
        dsimp only
        rw [hnone]
        dsimp only
        rw [List.nil_append]
      have hrest2 : cs2.flatten = (pre ++ 10 :: post).drop c.length := by
        have h2 := congrArg (List.drop c.length) hflat
        rwa [List.drop_left] at h2
      have hsr := statusRun pre post hpre cs2 c.length hcase hrest2
      rw [← hcval] at hsr
      constructor
      · intro e he
        refine ⟨⟨.StatusLine, pre ++ [10]⟩, ?_⟩
        rw [runWrites, hwrite]
        exact hsr.1 e he
      · intro u hu
        obtain ⟨ds, hds, hrun⟩ := hsr.2 u hu
        left
        refine ⟨ds, hds, ?_⟩
        rw [runWrites, hwrite]
        exact hrun
    · -- first chunk crosses the status-line newline
      push_neg at hcase
      have hcross : c = pre ++ 10 :: post.take (c.length - pre.length - 1) := by
        conv_lhs => rw [hcval]
        have h2 := slice_cross pre post 0 c.length (Nat.zero_le _) (by omega)
        simpa using h2
      obtain ⟨k, hk⟩ : ∃ k, c.length - pre.length - 1 = k := ⟨_, rfl⟩
      rw [hk] at hcross
      have hfind : find_newline c = some pre.length := by
        rw [hcross]
        exact find_newline_first pre (post.take k) hpre
      have hstatus : c.take (pre.length + 1) = pre ++ [10] := by
        rw [hcross, List.take_append_eq_append_take,
          List.take_of_length_le (l := pre) (by omega)]
        congr 1
        have h3 : pre.length + 1 - pre.length = 1 := by omega
        rw [h3]
        rfl
      have hrestc : c.drop (pre.length + 1) = post.take k := by
        conv_lhs => rw [hcross]
        rw [List.drop_append_eq_append_drop,
          List.drop_of_length_le (l := pre) (by omega)]
        have h3 : pre.length + 1 - pre.length = 1 := by omega
        rw [List.nil_append, h3]
        rfl
      have hflat2 : c.drop (pre.length + 1) ++ cs2.flatten = post := by
        rw [hrestc]
        have h2 := congrArg (List.drop c.length) hflat
        rw [List.drop_left] at h2
        rw [h2]
        have hsplit : pre ++ 10 :: post = (pre ++ [10]) ++ post := by simp
        rw [hsplit, List.drop_append_eq_append_drop,
          List.drop_of_length_le (l := pre ++ [10]) (by simp; omega), List.nil_append]
        have harith : c.length - (pre ++ [10]).length = k := by
          simp
          omega
        rw [harith, List.take_append_drop]
      cases hv : validate_status (pre ++ [10]) with
      | error e0 =>
        have hwrite : write .fresh c = (⟨.Initial, []⟩, .error e0) := by
          unfold write WebSocketUpgrade.fresh
          dsimp only
          rw [hfind]
          dsimp only
          rw [hstatus, hv]
        constructor
        · intro e he
          rw [Except.error.injEq] at he
          subst he
          exact ⟨⟨.Initial, []⟩, by rw [runWrites, hwrite]⟩
        · intro u hu
          exact absurd hu (by simp)
      | ok u0 =>
        constructor
        · intro e he
          exact absurd he (by simp)
        · intro u hu
          by_cases hsuf : [13, 10, 13, 10].isSuffixOf (c.drop (pre.length + 1)) = true
          · right
            refine ⟨c.drop (pre.length + 1), cs2.flatten, hflat2, hsuf, ?_⟩
            have hwrite : write .fresh c
                = (⟨.Initial, []⟩,
                  match parse_response (c.drop (pre.length + 1)) with
                  | .error e => .error e
                  | .ok (idx, r) => .ok (some (r, (c.drop (pre.length + 1)).drop idx))) := by
              unfold write WebSocketUpgrade.fresh
              dsimp only
              rw [hfind]
              dsimp only
              rw [hstatus, hv]
              dsimp only
              rw [hsuf]
              cases parse_response (c.drop (pre.length + 1)) with
              | error e => rfl
              | ok p =>
                obtain ⟨idx, r⟩ := p
                rfl
            rw [runWrites, hwrite]
            cases parse_response (c.drop (pre.length + 1)) with
            | error e => rfl
            | ok p =>
              obtain ⟨idx, r⟩ := p
              rfl
          · left
            have hwrite : write .fresh c = writeHeaders [] (c.drop (pre.length + 1)) := by
              unfold write WebSocketUpgrade.fresh
              dsimp only
              rw [hfind]
              dsimp only
              rw [hstatus, hv]
              dsimp only
              rw [Bool.eq_false_iff.mpr hsuf, if_neg (by simp)]
            refine ⟨c.drop (pre.length + 1) :: cs2, by rw [List.flatten_cons]; exact hflat2, ?_⟩
            rw [runWrites, hwrite, runWrites_headers_chunk]

theorem render_decomp (D : UpgradeResponse) :
    render D = statusPre D.reason D.statusCrlf
      ++ 10 :: (renderBlock D.headers D.termCrlf ++ D.trailing) := by
  unfold render renderStatus statusPre lineEnd
  cases D.statusCrlf <;> simp

theorem statusPre_no10 (reason : List Nat) (sc : Bool)
    (hreason : ∀ b ∈ reason, b ≠ 10 ∧ b ≠ 13) :
    ∀ b ∈ statusPre reason sc, b ≠ 10 := by
  intro b hb
  unfold statusPre at hb
  simp only [List.append_assoc, List.mem_append] at hb
  rcases hb with hb | hb | hb
  · revert hb
    have hpat : ∀ b2 ∈ statusPat, b2 ≠ 10 := by decide
    exact hpat b
  · exact (hreason b hb).1
  · cases sc <;> simp_all

theorem validate_status_render (reason : List Nat) (sc : Bool) :
    validate_status (statusPre reason sc ++ [10]) = .ok () := by
  unfold validate_status statusPre statusPat
  rw [if_pos]
  rw [List.isPrefixOf_iff_prefix]
  exact ⟨reason ++ (if sc then [13] else []) ++ [10], by simp⟩

theorem renderBlock_len_pos (hs : List HeaderLine) (tc : Bool) :
    0 < (renderBlock hs tc).length := by
  unfold renderBlock
  cases tc <;> simp [lineEnd]

theorem drop_status (pre post : List Nat) :
    (pre ++ 10 :: post).drop (pre.length + 1) = post := by
  have h : pre ++ 10 :: post = (pre ++ [10]) ++ post := by simp
  rw [h]
  have h2 : pre.length + 1 = (pre ++ [10]).length := by simp
  rw [h2, List.drop_left]

theorem take_status (pre post : List Nat) :
    (pre ++ 10 :: post).take (pre.length + 1) = pre ++ [10] := by
  have h : pre ++ 10 :: post = (pre ++ [10]) ++ post := by simp
  rw [h]
  have h2 : pre.length + 1 = (pre ++ [10]).length := by simp
  rw [h2, List.take_left]

theorem chunksOf_flatten (k : Nat) (l : List Nat) : (chunksOf k l).flatten = l := by
  unfold chunksOf
  suffices H : ∀ fuel l2, l2.length ≤ fuel → (chunksOfAux k l2 fuel).flatten = l2 from
    H l.length l le_rfl
  intro fuel
  induction fuel with
  | zero =>
    intro l2 hl
    cases l2 with
    | nil => rfl
    | cons b t => simp at hl
  | succ f ih =>
    intro l2 hl
    cases l2 with
    | nil => rfl
    | cons b t =>
      rw [chunksOfAux, List.flatten_cons]
      have hrec := ih (t.drop (k - 1)) (by simp at hl ⊢; omega)
      rw [hrec, List.cons_append, List.take_append_drop]

/-- A single `write` of a full well-formed rendered response returns
`Done` with the described response and exactly the trailing bytes. -/
theorem singleCall_done (D : UpgradeResponse) (hwf : WFResponse D)
    (hle : D.headers.length ≤ 16) :
    ∃ s, runWrites .fresh [render D] = .done s (respOf D.headers) D.trailing := by
  obtain ⟨hreason, hhs, hne, hlast⟩ := hwf
  have hdec := render_decomp D
  have hfind : find_newline (render D) = some (statusPre D.reason D.statusCrlf).length := by
    rw [hdec]
    exact find_newline_first _ _ (statusPre_no10 _ _ hreason)
  have hstatus : (render D).take ((statusPre D.reason D.statusCrlf).length + 1)
      = statusPre D.reason D.statusCrlf ++ [10] := by
    rw [hdec, take_status]
  have hrest : (render D).drop ((statusPre D.reason D.statusCrlf).length + 1)
      = renderBlock D.headers D.termCrlf ++ D.trailing := by
    rw [hdec, drop_status]
  by_cases hsuf : [13, 10, 13, 10].isSuffixOf
      (renderBlock D.headers D.termCrlf ++ D.trailing) = true
  · have hwrite : write .fresh (render D)
        = (⟨.Initial, []⟩, .ok (some (respOf D.headers, D.trailing))) := by
      unfold write WebSocketUpgrade.fresh
      dsimp only
      rw [hfind]
      dsimp only
      rw [hstatus, validate_status_render]
      dsimp only
      rw [hrest, hsuf, if_pos rfl,
        parse_response_render_ok D.headers D.termCrlf hhs hle D.trailing]
      dsimp only
      rw [List.drop_left]
    exact ⟨⟨.Initial, []⟩, by rw [runWrites, hwrite]⟩
  · have hwrite : write .fresh (render D)
        = writeHeaders [] (renderBlock D.headers D.termCrlf ++ D.trailing) := by
      unfold write WebSocketUpgrade.fresh
      dsimp only
      rw [hfind]
      dsimp only
      rw [hstatus, validate_status_render]
      dsimp only
      rw [hrest, Bool.eq_false_iff.mpr hsuf, if_neg (by simp)]
    have hc0 : (renderBlock D.headers D.termCrlf).take 0
          ++ (renderBlock D.headers D.termCrlf ++ D.trailing)
        = (renderBlock D.headers D.termCrlf ++ D.trailing).take
            (0 + (renderBlock D.headers D.termCrlf ++ D.trailing).length) := by
      rw [List.take_zero, List.nil_append, Nat.zero_add, List.take_length]
    have hwh := headersStep_hit D.headers D.termCrlf D.trailing hne hlast 0
      (renderBlock D.headers D.termCrlf ++ D.trailing) hc0 (by simp)
    rw [List.take_zero] at hwh
    have harith : 0 + (renderBlock D.headers D.termCrlf ++ D.trailing).length
        - (renderBlock D.headers D.termCrlf).length = D.trailing.length := by
      simp
    rw [harith, List.take_length] at hwh
    rw [parse_response_render_ok D.headers D.termCrlf hhs hle D.trailing] at hwh
    dsimp only at hwh
    rw [List.drop_left] at hwh
    exact ⟨⟨.Complete, []⟩, by rw [runWrites, hwrite, hwh]⟩

/-- Any chunked delivery of a well-formed rendered response completes
with the described response; the leftover is the already-delivered
prefix of the trailing bytes. -/
theorem runRender_done (D : UpgradeResponse) (hwf : WFResponse D)
    (hle : D.headers.length ≤ 16) (cs : List (List Nat))
    (hflat : cs.flatten = render D) :
    ∃ s d, d ≤ D.trailing.length ∧
      runWrites .fresh cs = .done s (respOf D.headers) (D.trailing.take d) := by
  obtain ⟨hreason, hhs, hne, hlast⟩ := hwf
  have hfr := runFresh (statusPre D.reason D.statusCrlf)
    (renderBlock D.headers D.termCrlf ++ D.trailing)
    (statusPre_no10 _ _ hreason) cs (by rw [hflat]; exact render_decomp D)
  rcases hfr.2 () (validate_status_render _ _) with
    ⟨ds, hds, hrun⟩ | ⟨rest, rpost, hrp, hsuf, hrun⟩
  · obtain ⟨d, hd, hrun2⟩ := runHeaders_ok D.headers D.termCrlf D.trailing hhs hle hne hlast
      ds 0 (renderBlock_len_pos _ _) (by rw [hds, List.drop_zero])
    rw [List.take_zero] at hrun2
    exact ⟨⟨.Complete, []⟩, d, hd, by rw [hrun, hrun2]⟩
  · obtain ⟨rl, hrl⟩ : ∃ rl, rest.length = rl := ⟨_, rfl⟩
    have hrlen : rest = (renderBlock D.headers D.termCrlf ++ D.trailing).take rl := by
      rw [← hrl, ← hrp, List.take_left]
    by_cases hlt : rl < (renderBlock D.headers D.termCrlf).length
    · exfalso
      have h1 : rest = (renderBlock D.headers D.termCrlf).take rl := by
        rw [hrlen, List.take_append_of_le_length (le_of_lt hlt)]
      have h2 := suffix_contains _ _ hsuf
      rw [h1] at h2
      rw [containsSeq_take_block D.headers D.termCrlf hhs [13, 10, 13, 10]
        (Or.inr rfl) rl hlt] at h2
      exact absurd h2 (by simp)
    · push_neg at hlt
      obtain ⟨j, hj⟩ : ∃ j, rl - (renderBlock D.headers D.termCrlf).length = j := ⟨_, rfl⟩
      have hform : rest = renderBlock D.headers D.termCrlf ++ D.trailing.take j := by
        rw [hrlen, List.take_append_eq_append_take, List.take_of_length_le hlt, hj]
      have hd : j ≤ D.trailing.length := by
        have hl2 := congrArg List.length hrp
        simp at hl2
        rw [hrl] at hl2
        omega
      refine ⟨⟨.Initial, []⟩, j, hd, ?_⟩
      rw [hrun, hform,
        parse_response_render_ok D.headers D.termCrlf hhs hle (D.trailing.take j)]
      dsimp only
      rw [List.drop_left]

/-- Any chunked delivery of a rendered response with more than 16
header lines fails with the too-many-headers error. -/
theorem runRender_tooMany (D : UpgradeResponse) (hwf : WFResponse D)
    (hgt : 16 < D.headers.length) (cs : List (List Nat))
    (hflat : cs.flatten = render D) :
    ∃ s, runWrites .fresh cs = .failed s .tooManyHeaders := by
  obtain ⟨hreason, hhs, hne, hlast⟩ := hwf
  have hfr := runFresh (statusPre D.reason D.statusCrlf)
    (renderBlock D.headers D.termCrlf ++ D.trailing)
    (statusPre_no10 _ _ hreason) cs (by rw [hflat]; exact render_decomp D)
  rcases hfr.2 () (validate_status_render _ _) with
    ⟨ds, hds, hrun⟩ | ⟨rest, rpost, hrp, hsuf, hrun⟩
  · obtain ⟨b2, hrun2⟩ := runHeaders_tooMany D.headers D.termCrlf D.trailing hhs hgt hne hlast
      ds 0 (renderBlock_len_pos _ _) (by rw [hds, List.drop_zero])
    rw [List.take_zero] at hrun2
    exact ⟨⟨.Headers, b2⟩, by rw [hrun, hrun2]⟩
  · obtain ⟨rl, hrl⟩ : ∃ rl, rest.length = rl := ⟨_, rfl⟩
    have hrlen : rest = (renderBlock D.headers D.termCrlf ++ D.trailing).take rl := by
      rw [← hrl, ← hrp, List.take_left]
    by_cases hlt : rl < (renderBlock D.headers D.termCrlf).length
    · exfalso
      have h1 : rest = (renderBlock D.headers D.termCrlf).take rl := by
        rw [hrlen, List.take_append_of_le_length (le_of_lt hlt)]
      have h2 := suffix_contains _ _ hsuf
      rw [h1] at h2
      rw [containsSeq_take_block D.headers D.termCrlf hhs [13, 10, 13, 10]
        (Or.inr rfl) rl hlt] at h2
      exact absurd h2 (by simp)
    · push_neg at hlt
      obtain ⟨j, hj⟩ : ∃ j, rl - (renderBlock D.headers D.termCrlf).length = j := ⟨_, rfl⟩
      have hform : rest = renderBlock D.headers D.termCrlf ++ D.trailing.take j := by
        rw [hrlen, List.take_append_eq_append_take, List.take_of_length_le hlt, hj]
      refine ⟨⟨.Initial, []⟩, ?_⟩
      rw [hrun, hform,
        parse_response_render_tooMany D.headers D.termCrlf hhs hgt (D.trailing.take j)]

theorem parseHeaderLinesZero_err (bytes : List Nat) (e : HttpError)
    (h : parseHeaderLinesZero bytes = .error e) :
    e = .malformedHeaders ∨ e = .tooManyHeaders := by
  unfold parseHeaderLinesZero at h
  split at h
  · simp at h
  split at h
  · split at h
    · simp at h
    split at h
    · simp at h
    · rw [Except.error.injEq] at h
      exact Or.inl h.symm
  split at h
  · simp at h
  · rw [Except.error.injEq] at h
    exact Or.inr h.symm

theorem parseHeaderLinesSucc_err (rec : List Nat → Except HttpError HeadersStatus)
    (hrec : ∀ b e, rec b = .error e → e = .malformedHeaders ∨ e = .tooManyHeaders)
    (bytes : List Nat) (e : HttpError)
    (h : parseHeaderLinesSucc rec bytes = .error e) :
    e = .malformedHeaders ∨ e = .tooManyHeaders := by
  unfold parseHeaderLinesSucc at h
  split at h
  · simp at h
  split at h
  · split at h
    · simp at h
    split at h
    · simp at h
    · rw [Except.error.injEq] at h
      exact Or.inl h.symm
  split at h
  · simp at h
  · split at h
    · simp at h
    · rw [Except.error.injEq] at h
      exact Or.inl h.symm
    · rename_i name value consumed lrest hline
      split at h
      · simp at h
      · rename_i other hne
        exact hrec _ _ h

theorem parseHeaderLines_err (cap : Nat) (bytes : List Nat) (e : HttpError)
    (h : parseHeaderLines bytes cap = .error e) :
    e = .malformedHeaders ∨ e = .tooManyHeaders := by
  induction cap generalizing bytes e with
  | zero => exact parseHeaderLinesZero_err _ _ h
  | succ c2 ih => exact parseHeaderLinesSucc_err _ (fun b e2 hb => ih b e2 hb) _ _ h

theorem parse_response_err (b : List Nat) (e : HttpError)
    (h : parse_response b = .error e) :
    e = .malformedHeaders ∨ e = .tooManyHeaders ∨ e = .invalidHeaders := by
  unfold parse_response at h
  split at h
  · rename_i e2 hphl
    rw [Except.error.injEq] at h
    rw [← h]
    rcases parseHeaderLines_err 16 b e2 hphl with h2 | h2
    · exact Or.inl h2
    · exact Or.inr (Or.inl h2)
  · rw [Except.error.injEq] at h
    exact Or.inr (Or.inr h.symm)
  · split at h
    · simp at h
    · rw [Except.error.injEq] at h
      exact Or.inl h.symm

theorem writeHeaders_error (buf bytes : List Nat) (s2 : WebSocketUpgrade) (e : HttpError)
    (h : writeHeaders buf bytes = (s2, .error e)) :
    parse_response (buf ++ bytes) = .error e := by
  unfold writeHeaders at h
  dsimp only at h
  split at h
  · split at h
    · rename_i e2 hpr
      rw [Prod.mk.injEq, Except.error.injEq] at h
      rw [hpr, h.2]
    · simp_all
  · split at h
    · split at h
      · rename_i e2 hpr
        rw [Prod.mk.injEq, Except.error.injEq] at h
        rw [hpr, h.2]
      · simp_all
    · simp_all

theorem runWrites_headers_ne_isl (ds : List (List Nat)) :
    ∀ buf s, runWrites ⟨.Headers, buf⟩ ds ≠ .failed s .invalidStatusLine := by
  induction ds with
  | nil =>
    intro buf s
    simp [runWrites]
  | cons c ds2 ih =>
    intro buf s
    rw [runWrites_headers_chunk]
    cases hwh : writeHeaders buf c with
    | mk s2 res =>
      cases res with
      | ok o =>
        cases o with
        | none =>
          have hs2 := writeHeaders_pending _ _ _ hwh
          subst hs2
          exact ih _ s
        | some rl => simp
      | error e =>
        have hpr := writeHeaders_error _ _ _ _ hwh
        intro hcon
        rw [Outcome.failed.injEq] at hcon
        rcases parse_response_err _ _ hpr with rfl | rfl | rfl <;> simp at hcon

theorem respOf_crlfAll (D : UpgradeResponse) :
    respOf (crlfAll D).headers = respOf D.headers := by
  unfold respOf crlfAll
  simp

theorem wf_crlfAll (D : UpgradeResponse) (hwf : WFResponse D) : WFResponse (crlfAll D) := by
  obtain ⟨hreason, hhs, hne, hlast⟩ := hwf
  refine ⟨hreason, ?_, by simp [crlfAll, hne], ?_⟩
  · intro h2 hh2
    unfold crlfAll at hh2
    simp only [List.mem_map] at hh2
    obtain ⟨h3, hh3, hmap⟩ := hh2
    obtain ⟨w1, w2, w3, w4, w5⟩ := hhs h3 hh3
    subst hmap
    exact ⟨w1, w2, w3, w4, w5⟩
  · intro htc
    unfold crlfAll
    dsimp only
    rw [List.getLast?_map]
    cases hl : D.headers.getLast? with
    | none =>
      exfalso
      rw [List.getLast?_eq_none_iff] at hl
      exact hne hl
    | some h3 => exact ⟨_, rfl, rfl⟩

/-- C1 amended: for every well-formed complete response (at least one
and at most 16 header lines, compatible terminators) and every chunk
size `k ≥ 1`: a single-call write returns `Done` with the structured
response and leftover exactly the trailing bytes, and the chunked run
returns `Done` with the *same* structured response and a leftover that
is the already-delivered prefix of those trailing bytes. -/
theorem C1_chunk_invariance_amended (D : UpgradeResponse) (hwf : WFResponse D)
    (hle : D.headers.length ≤ 16) (k : Nat) (_hk : 1 ≤ k) :
    (∃ s1, runWrites .fresh [render D] = .done s1 (respOf D.headers) D.trailing) ∧
    (∃ s2 d, d ≤ D.trailing.length ∧
      runWrites .fresh (chunksOf k (render D))
        = .done s2 (respOf D.headers) (D.trailing.take d)) := by
  refine ⟨singleCall_done D hwf hle, ?_⟩
  exact runRender_done D hwf hle _ (chunksOf_flatten k (render D))

/-- C1 witness: the amended theorem at a concrete response and k = 2. -/
theorem C1_chunk_invariance_witness :
    (∃ s1, runWrites .fresh [render D0] = .done s1 (respOf D0.headers) D0.trailing) ∧
    (∃ s2 d, d ≤ D0.trailing.length ∧
      runWrites .fresh (chunksOf 2 (render D0))
        = .done s2 (respOf D0.headers) (D0.trailing.take d)) :=
  C1_chunk_invariance_amended D0 (by decide) (by decide) 2 (by decide)

/-- C3: for any input stream (in any chunking) whose first line — the
bytes up to and including the first `\n`, written `pre ++ [10]` with
`pre` newline-free — does not begin with `HTTP/1.1 101 `, the run fails
with `InvalidStatusLine`; and when the first line does begin with that
prefix, no run ever fails with `InvalidStatusLine`, whatever the rest
of the line says. -/
theorem C3_status_validation (pre post : List Nat) (cs : List (List Nat))
    (hpre : ∀ b ∈ pre, b ≠ 10) (hflat : cs.flatten = pre ++ 10 :: post) :
    (¬ (strBytes "HTTP/1.1 101 ").isPrefixOf (pre ++ [10]) = true →
      ∃ s, runWrites .fresh cs = .failed s .invalidStatusLine) ∧
    ((strBytes "HTTP/1.1 101 ").isPrefixOf (pre ++ [10]) = true →
      ∀ s, runWrites .fresh cs ≠ .failed s .invalidStatusLine) := by
  have hfr := runFresh pre post hpre cs hflat
  constructor
  · intro hnp
    refine hfr.1 .invalidStatusLine ?_
    unfold validate_status
    rw [if_neg hnp]
  · intro hp s hcon
    have hv : validate_status (pre ++ [10]) = .ok () := by
      unfold validate_status
      rw [if_pos hp]
    rcases hfr.2 () hv with ⟨ds, hds, hrun⟩ | ⟨rest, rpost, hrp, hsuf, hrun⟩
    · rw [hrun] at hcon
      exact runWrites_headers_ne_isl ds [] s hcon
    · rw [hrun] at hcon
      cases hpr : parse_response rest with
      | error e =>
        rw [hpr] at hcon
        dsimp only at hcon
        rw [Outcome.failed.injEq] at hcon
        rcases parse_response_err _ _ hpr with rfl | rfl | rfl <;> simp at hcon
      | ok p =>
        obtain ⟨idx, r⟩ := p
        rw [hpr] at hcon
        simp at hcon

/-- C3 witness: a 200 status line fails with `InvalidStatusLine`. -/
theorem C3_status_validation_witness :
    ∃ s, runWrites .fresh [strBytes "HTTP/1.1 200 OK\nC: U\n\n"]
      = .failed s .invalidStatusLine :=
  (C3_status_validation (strBytes "HTTP/1.1 200 OK") (strBytes "C: U\n\n")
    [strBytes "HTTP/1.1 200 OK\nC: U\n\n"] (by decide) (by decide)).1 (by decide)

/-- C5: for every otherwise well-formed response and every chunk size,
a header block with at most 16 header lines parses to `Done`, and one
with 17 or more header lines fails with `TooManyHeaders`. -/
theorem C5_header_capacity (D : UpgradeResponse) (hwf : WFResponse D)
    (k : Nat) (_hk : 1 ≤ k) :
    (D.headers.length ≤ 16 →
      ∃ s d, d ≤ D.trailing.length ∧
        runWrites .fresh (chunksOf k (render D))
          = .done s (respOf D.headers) (D.trailing.take d)) ∧
    (17 ≤ D.headers.length →
      ∃ s, runWrites .fresh (chunksOf k (render D)) = .failed s .tooManyHeaders) := by
  constructor
  · intro hle
    exact runRender_done D hwf hle _ (chunksOf_flatten k (render D))
  · intro hgt
    exact runRender_tooMany D hwf (by omega) _ (chunksOf_flatten k (render D))

/-- C5 witness: 17 header lines fail with `TooManyHeaders`. -/
theorem C5_header_capacity_witness :
    ∃ s, runWrites .fresh (chunksOf 1 (render D17)) = .failed s .tooManyHeaders :=
  (C5_header_capacity D17 (by decide) 1 (by decide)).2 (by decide)

/-- C7: replacing every bare `\n` by `\r\n` inside the header block
(status line, header lines and blank line) of a well-formed response
yields, from a fresh parser, the same structured response (same
headers, same order) and the same leftover trailing bytes. -/
theorem C7_line_ending_equivalence (D : UpgradeResponse) (hwf : WFResponse D)
    (hle : D.headers.length ≤ 16) :
    (∃ s1, runWrites .fresh [render D] = .done s1 (respOf D.headers) D.trailing) ∧
    (∃ s2, runWrites .fresh [render (crlfAll D)] = .done s2 (respOf D.headers) D.trailing) := by
  refine ⟨singleCall_done D hwf hle, ?_⟩
  have h2 := singleCall_done (crlfAll D) (wf_crlfAll D hwf)
    (by simpa [crlfAll] using hle)
  rw [respOf_crlfAll] at h2
  exact h2

/-- C7 witness: the equivalence at a concrete response. -/
theorem C7_line_ending_witness :
    (∃ s1, runWrites .fresh [render D0] = .done s1 (respOf D0.headers) D0.trailing) ∧
    (∃ s2, runWrites .fresh [render (crlfAll D0)] = .done s2 (respOf D0.headers) D0.trailing) :=
  C7_line_ending_equivalence D0 (by decide) (by decide)

/-- C8: every successful parse carries status code exactly 101; and the
header list of a parsed rendered block is the rendered lines in their
original order with every duplicate occurrence retained (only the names
are lowercased). -/
theorem C8_header_order_duplicates :
    (∀ bytes idx r, parse_response bytes = .ok (idx, r) → r.status = 101) ∧
    (∀ (hs : List HeaderLine) (tc : Bool) (tail : List Nat),
      (∀ h ∈ hs, WFHeader h) → hs.length ≤ 16 →
      parse_response (renderBlock hs tc ++ tail)
        = .ok ((renderBlock hs tc).length,
            ⟨101, hs.map (fun h => (h.name.map lowerByte, h.value))⟩)) := by
  constructor
  · intro bytes idx r h
    unfold parse_response at h
    split at h
    · simp at h
    · simp at h
    · split at h
      · rw [Except.ok.injEq, Prod.mk.injEq] at h
        rw [← h.2]
      · simp at h
  · intro hs tc tail hwf hle
    exact parse_response_render_ok hs tc hwf hle tail

/-- C8 witness: a block with a duplicated header name keeps both
occurrences, in order, with status 101. -/
theorem C8_header_order_witness :
    parse_response (renderBlock hsDup false ++ [])
      = .ok ((renderBlock hsDup false).length,
          ⟨101, hsDup.map (fun h => (h.name.map lowerByte, h.value))⟩) :=
  C8_header_order_duplicates.2 hsDup false [] (by decide) (by decide)

end DenoWS

